import Mathlib

/-!
Shallow embedding of the `InjectHooks` class (src/inject-hooks.ts) of the
inject-hooks package: an in-process hook/middleware engine with named or
predicate-matched handlers, mutating interceptors with ordering constraints
(`after`/`before`/`conflicts`/`depends` and a `pre|mid|post` bucket), a
resolved-chain cache, a continuation-passing chain executor and a handler
dispatcher.

JavaScript `Map`s and `Set`s preserve insertion order, so they are embedded
as association lists / lists with order-preserving operations.  The
repeated-pass worklist of `_orderInterceptors` (a `do ... while` loop) is
embedded with explicit fuel: a `none` result means the loop did not
terminate within the given fuel.  Interceptor callbacks are embedded as
functions `α → Option α` (the payload the continuation is called with, or
`none` when the interceptor withholds its continuation); handler callbacks
are embedded as identity-carrying values so that removal by identity
(`off`) and the self-removing `once` wrapper are expressible.
-/

namespace InjectHooks

/-- Interceptor ids (`InjectHooksId` in the source). -/
abbrev IHId := String

/-- Concrete event names (`InjectHooksKey` in the source). -/
abbrev IHName := String

/-- The `order` condition: one of `"pre" | "mid" | "post"`. -/
inductive Bucket where
  | pre
  | mid
  | post
deriving DecidableEq, Repr

/-- Normalized conditions (`InjectHooksConditionsAbsolute`). -/
structure ConditionsAbsolute where
  after : List IHId
  before : List IHId
  conflicts : List IHId
  depends : List IHId
  order : Bucket
deriving DecidableEq, Repr

/-- A user-supplied condition field: a single id, a list of ids, or absent
(`InjectHooksKey[] | InjectHooksKey | undefined`). -/
inductive KeyOrKeys where
  | one (k : IHId)
  | many (ks : List IHId)
  | undef
deriving DecidableEq, Repr

/-- User-supplied partial conditions (`InjectHooksConditions`). -/
structure Conditions where
  after : KeyOrKeys := .undef
  before : KeyOrKeys := .undef
  conflicts : KeyOrKeys := .undef
  depends : KeyOrKeys := .undef
  order : Option Bucket := none

/-- The `toArray` normalizer inside `inject`: an array is kept, `undefined`
becomes `[]`, a scalar becomes a singleton. -/
def toArray : KeyOrKeys → List IHId
  | .many ks => ks
  | .undef => []
  | .one k => [k]

/-- The first argument of `inject`/`on`/...: a concrete name or a filter
function over names. -/
inductive NameOrFilter where
  | str (n : IHName)
  | fn (p : IHName → Bool)

/-- Keys of the internal maps: a concrete name, or the single
`InjectHooksFilter` symbol under which all filter-keyed entries live. -/
inductive HKey where
  | filter
  | concrete (n : IHName)
deriving DecidableEq, Repr

/-- `typeof name === "function" ? InjectHooksFilter : name`. -/
def toKey : NameOrFilter → HKey
  | .fn _ => .filter
  | .str n => .concrete n

/-- An interceptor record (`InjectHooksInterceptorInfo`); `ι` is the type of
the stored `injector` callback. -/
structure InterceptorInfo (ι : Type) where
  id : IHId
  injector : ι
  name : NameOrFilter
  conditions : ConditionsAbsolute

/-- Handler callbacks, as identity-carrying values: a plain handler with a
numeric identity, or the self-removing wrapper registered by `once` (which
closes over the registration key and the wrapped handler). -/
inductive HandlerVal where
  | plain (hid : Nat)
  | wrapOnce (key : HKey) (target : HandlerVal)
deriving DecidableEq, Repr

/-- A handler record (`InjectHooksHandlerInfo`). -/
structure HandlerInfo where
  name : NameOrFilter
  handler : HandlerVal

/-- The error kinds raised by the class (each `throw new Error(...)` site,
identified by its message shape). -/
inductive HookError where
  | duplicateId (id : IHId)
  | interceptorNotFound (id : IHId)
  | handlerNotFound
  | missingDependency (id : IHId) (dep : IHId)
  | conflictsWith (id : IHId) (other : IHId)
  | circularDependencies (ids : List IHId)
deriving DecidableEq, Repr

/-! ### Insertion-ordered maps (JavaScript `Map`) as association lists -/

/-- `Map.prototype.get`. -/
def alGet [DecidableEq κ] (m : List (κ × β)) (k : κ) : Option β :=
  (m.find? (fun e => decide (e.1 = k))).map (·.2)

/-- `Map.prototype.has`. -/
def alHas [DecidableEq κ] (m : List (κ × β)) (k : κ) : Bool :=
  m.any (fun e => decide (e.1 = k))

/-- `Map.prototype.set`: replace in place when the key exists (JavaScript
keeps the original position), append otherwise. -/
def alSet [DecidableEq κ] (m : List (κ × β)) (k : κ) (v : β) : List (κ × β) :=
  if alHas m k then m.map (fun e => if e.1 = k then (k, v) else e)
  else m ++ [(k, v)]

/-- `Map.prototype.delete`. -/
def alDelete [DecidableEq κ] (m : List (κ × β)) (k : κ) : List (κ × β) :=
  m.filter (fun e => decide (¬ e.1 = k))

/-! ### The whole-instance state -/

/-- The three private fields of an `InjectHooks` instance. -/
structure HooksState (ι : Type) where
  handlers : List (HKey × List HandlerInfo) := []
  interceptors : List (HKey × List (IHId × InterceptorInfo ι)) := []
  interceptorsOrdered : List (HKey × List ι) := []

/-! ### `_orderInterceptors`: the repeated-pass worklist over one bucket -/

/-- `Set.prototype.add` on the `wait` set (insertion-ordered, deduplicated). -/
def waitAdd (w : List IHId) (x : IHId) : List IHId :=
  if x ∈ w then w else w ++ [x]

/-- One iteration of the first `for (const id of unresolved)` loop computing
the `wait` set: mark `id` when some `after` entry is still unresolved, and
mark every still-unresolved `before` entry of `id`. -/
def computeWaitStep (map : List (IHId × InterceptorInfo ι)) (unresolved : List IHId)
    (wait : List IHId) (id : IHId) : List IHId :=
  match alGet map id with
  | none => wait
  | some info =>
    let wait :=
      if info.conditions.after.any (fun a => decide (a ∈ unresolved)) then waitAdd wait id
      else wait
    info.conditions.before.foldl
      (fun w b => if b ∈ unresolved then waitAdd w b else w) wait

/-- The full `wait` set of one pass of the worklist. -/
def computeWait (map : List (IHId × InterceptorInfo ι)) (unresolved : List IHId) :
    List IHId :=
  unresolved.foldl (computeWaitStep map unresolved) []

/-- The `do ... while` loop of `_orderInterceptors`, with fuel.  One pass
computes `wait`, emits every unresolved id not in `wait` (in order) and keeps
the rest; the loop repeats while the remaining count differs from
`lastSize` — which the source sets once, to the initial count, and never
updates — and is nonzero.  `none` means the fuel was exhausted, i.e. the
loop did not terminate. -/
def orderLoopGo (map : List (IHId × InterceptorInfo ι)) (lastSize : Nat) :
    Nat → List IHId → List (InterceptorInfo ι) →
    Option (List (InterceptorInfo ι) × List IHId)
  | 0, _, _ => none
  | fuel + 1, unresolved, result =>
    let wait := computeWait map unresolved
    let emitted := unresolved.filter (fun id => decide (id ∉ wait))
    let kept := unresolved.filter (fun id => decide (id ∈ wait))
    let result := result ++ emitted.filterMap (fun id => alGet map id)
    if kept.length ≠ lastSize ∧ kept.length ≠ 0 then
      orderLoopGo map lastSize fuel kept result
    else
      some (result, kept)

/-- `_orderInterceptors`, with the pushed values kept as whole records; the
source pushes `info.injector`, recovered by projection in
`_orderInterceptors` below.  `some (.error ...)` is the
`Circular dependencies` throw; `none` is nontermination of the loop. -/
def _orderInterceptorsInfo (map : List (IHId × InterceptorInfo ι)) (fuel : Nat) :
    Option (Except HookError (List (InterceptorInfo ι))) :=
  match orderLoopGo map (map.map Prod.fst).length fuel (map.map Prod.fst) [] with
  | none => none
  | some (result, unresolved) =>
    if unresolved.length ≠ 0 then
      some (.error (.circularDependencies unresolved))
    else
      some (.ok result)

/-- `_orderInterceptors` proper: the ordered list of `injector` callbacks of
one bucket. -/
def _orderInterceptors (map : List (IHId × InterceptorInfo ι)) (fuel : Nat) :
    Option (Except HookError (List ι)) :=
  (_orderInterceptorsInfo map fuel).map (Except.map (List.map (·.injector)))

/-! ### `_separateInterceptors`, `_verifyInterceptors`, `_getInterceptors` -/

/-- `_separateInterceptors`: partition the pool into the `pre`, `mid` and
`post` buckets (keyed by each record's own `id`, as the source's
`pre.set(info.id, info)` does), in iteration order. -/
def _separateInterceptors (map : List (IHId × InterceptorInfo ι)) :
    List (IHId × InterceptorInfo ι) × List (IHId × InterceptorInfo ι) ×
      List (IHId × InterceptorInfo ι) :=
  let vals := map.map Prod.snd
  ((vals.filter (fun i => decide (i.conditions.order = .pre))).map (fun i => (i.id, i)),
   (vals.filter (fun i =>
      decide (¬ i.conditions.order = .pre ∧ ¬ i.conditions.order = .post))).map
     (fun i => (i.id, i)),
   (vals.filter (fun i => decide (i.conditions.order = .post))).map (fun i => (i.id, i)))

/-- The per-record body of `_verifyInterceptors`: the first missing
`depends` id (checked first), else the first present `conflicts` id. -/
def verifyRecordErr (map : List (IHId × InterceptorInfo ι)) (info : InterceptorInfo ι) :
    Option HookError :=
  match info.conditions.depends.find? (fun d => ! alHas map d) with
  | some d => some (.missingDependency info.id d)
  | none =>
    match info.conditions.conflicts.find? (fun c => alHas map c) with
    | some c => some (.conflictsWith info.id c)
    | none => none

/-- `_verifyInterceptors`: the first `depends`/`conflicts` violation in
pool-iteration order, or `none` when the pool validates. -/
def _verifyInterceptors (map : List (IHId × InterceptorInfo ι)) : Option HookError :=
  (map.map Prod.snd).findSome? (verifyRecordErr map)

/-- `_getInterceptors`: the candidate pool for a concrete name — a copy of
the concrete-key map, extended with every filter-keyed record whose filter
accepts the name, failing on a duplicate id. -/
def _getInterceptors (s : HooksState ι) (name : IHName) :
    Except HookError (List (IHId × InterceptorInfo ι)) :=
  ((alGet s.interceptors .filter).getD []).foldlM
    (fun result e =>
      match e.2.name with
      | .fn p =>
        if p name then
          if alHas result e.1 then .error (.duplicateId e.1)
          else .ok (alSet result e.1 e.2)
        else .ok result
      | .str _ => .ok result)
    ((alGet s.interceptors (.concrete name)).getD [])

/-! ### `_getOrderedInterceptors`: resolution with caching -/

/-- `_getOrderedInterceptors`: return the cache entry unchanged when
present; otherwise gather, verify, bucket and order the pool, concatenate
`pre ++ mid ++ post`, store it in the cache and return it (together with the
updated state).  `none` is nontermination of a bucket's worklist. -/
def _getOrderedInterceptors (s : HooksState ι) (name : IHName) (fuel : Nat) :
    Option (Except HookError (List ι × HooksState ι)) :=
  match alGet s.interceptorsOrdered (.concrete name) with
  | some cached => some (.ok (cached, s))
  | none =>
    match _getInterceptors s name with
    | .error e => some (.error e)
    | .ok map =>
      match _verifyInterceptors map with
      | some e => some (.error e)
      | none =>
        let sep := _separateInterceptors map
        match _orderInterceptors sep.1 fuel with
        | none => none
        | some (.error e) => some (.error e)
        | some (.ok p) =>
          match _orderInterceptors sep.2.1 fuel with
          | none => none
          | some (.error e) => some (.error e)
          | some (.ok m) =>
            match _orderInterceptors sep.2.2 fuel with
            | none => none
            | some (.error e) => some (.error e)
            | some (.ok q) =>
              let ordered := p ++ m ++ q
              some (.ok (ordered,
                { s with interceptorsOrdered :=
                    alSet s.interceptorsOrdered (.concrete name) ordered }))

/-- The `validate(name)` branch: force resolution of one name. -/
def validateNamed (s : HooksState ι) (name : IHName) (fuel : Nat) :
    Option (Except HookError (HooksState ι)) :=
  (_getOrderedInterceptors s name fuel).map (Except.map (·.2))

/-! ### `inject` and `remove`: the interceptor store mutators

JavaScript exceptions do not roll back earlier mutations of `this`, so each
mutator returns the final state together with an optional error: the state
component is the instance state at the moment the method returns or throws. -/

/-- The condition normalization performed inside `inject`: scalars wrapped,
absent fields emptied, `order` defaulted to `mid`. -/
def normalizeConditions (conditions : Conditions) : ConditionsAbsolute :=
  { after := toArray conditions.after
    before := toArray conditions.before
    conflicts := toArray conditions.conflicts
    depends := toArray conditions.depends
    order := conditions.order.getD .mid }

/-- `inject`: invalidate the cache (the whole cache for a filter key, the
one name otherwise), then fail on a duplicate id under the same key, else
append the normalized record. -/
def inject (s : HooksState ι) (name : NameOrFilter) (id : IHId) (injector : ι)
    (conditions : Conditions) : HooksState ι × Option HookError :=
  let mapKey := toKey name
  let s :=
    match name with
    | .fn _ => { s with interceptorsOrdered := [] }
    | .str n =>
      { s with interceptorsOrdered := alDelete s.interceptorsOrdered (.concrete n) }
  let map := (alGet s.interceptors mapKey).getD []
  if alHas map id then (s, some (.duplicateId id))
  else
    let info : InterceptorInfo ι :=
      { id := id, injector := injector, name := name,
        conditions := normalizeConditions conditions }
    ({ s with interceptors := alSet s.interceptors mapKey (alSet map id info) }, none)

/-- `remove`: delete the cache entry under the derived key, then — when the
key has a record map — delete the id from it (a no-op when absent), dropping
the key entry if the map became empty; when the key has no record map,
throw. -/
def remove (s : HooksState ι) (name : NameOrFilter) (id : IHId) :
    HooksState ι × Option HookError :=
  let key := toKey name
  let s := { s with interceptorsOrdered := alDelete s.interceptorsOrdered key }
  match alGet s.interceptors key with
  | some map =>
    let map := alDelete map id
    let interceptors :=
      if map.length = 0 then alDelete s.interceptors key
      else alSet s.interceptors key map
    ({ s with interceptors := interceptors }, none)
  | none => (s, some (.interceptorNotFound id))

/-! ### Handler registration: `on`, `off`, `once` -/

/-- `on`: append a handler record under the derived key. -/
def on' (s : HooksState ι) (name : NameOrFilter) (h : HandlerVal) : HooksState ι :=
  let key := toKey name
  let a := (alGet s.handlers key).getD []
  { s with handlers := alSet s.handlers key (a ++ [{ name := name, handler := h }]) }

/-- The body of `off`, which depends on `name` only through the derived key:
splice out the first record whose handler is identical, else (deleting the
key entry when the list was empty) throw. -/
def offByKey (s : HooksState ι) (key : HKey) (h : HandlerVal) :
    HooksState ι × Option HookError :=
  let a := (alGet s.handlers key).getD []
  match a.findIdx? (fun info => decide (info.handler = h)) with
  | some i => ({ s with handlers := alSet s.handlers key (a.eraseIdx i) }, none)
  | none =>
    let s := if a.length = 0 then { s with handlers := alDelete s.handlers key } else s
    (s, some .handlerNotFound)

/-- `off`. -/
def off (s : HooksState ι) (name : NameOrFilter) (h : HandlerVal) :
    HooksState ι × Option HookError :=
  offByKey s (toKey name) h

/-- `once`: register the self-removing wrapper, then the handler itself. -/
def once (s : HooksState ι) (name : NameOrFilter) (h : HandlerVal) : HooksState ι :=
  let s := on' s name (.wrapOnce (toKey name) h)
  on' s name h

/-! ### The chain executor (`_transform`) -/

/-- The `runNext` recursion of `_transform`, instrumented with the list of
interceptors that were actually invoked: each interceptor either calls its
continuation once with a new payload (`some`) — advancing the chain — or
withholds it (`none`), halting the chain; when the chain is exhausted the
completion callback receives the final payload (`some` in the second
component; `none` there means the callback was never invoked). -/
def runNextTrace (chain : List (α → Option α)) (d : α) :
    List (α → Option α) × Option α :=
  match chain with
  | [] => ([], some d)
  | t :: rest =>
    match t d with
    | some d' =>
      let r := runNextTrace rest d'
      (t :: r.1, r.2)
    | none => ([t], none)

/-- `_transform`: fetch the resolved chain (possibly computing and caching
it) and drive it with `runNext`.  `runNext` consumes the chain array with
`shift()`, and the array is the very object stored in the cache, so after
the run the cache entry for `name` holds only the interceptors that were
never reached. -/
def _transform (s : HooksState (α → Option α)) (name : IHName) (d : α) (fuel : Nat) :
    Option (Except HookError (HooksState (α → Option α) × Option α)) :=
  match _getOrderedInterceptors s name fuel with
  | none => none
  | some (.error e) => some (.error e)
  | some (.ok (chain, s2)) =>
    let tr := runNextTrace chain d
    let leftover := chain.drop tr.1.length
    let s3 :=
      { s2 with interceptorsOrdered := alSet s2.interceptorsOrdered (.concrete name) leftover }
    some (.ok (s3, tr.2))

/-! ### Handler dispatch and `emit` -/

/-- One observable callback invocation during dispatch. -/
inductive CallEntry (α : Type) where
  | doneCall (d : α) (name : IHName)
  | handlerCall (h : HandlerVal) (d : α) (name : IHName)
deriving DecidableEq, Repr

/-- Invoking one handler: a plain handler just observes `(data, name)`; the
`once` wrapper first removes itself, then its target, from the live handler
store. -/
def applyHandler (s : HooksState ι) (name : IHName) (d : α) :
    HandlerVal → HooksState ι × CallEntry α
  | .plain hid => (s, .handlerCall (.plain hid) d name)
  | .wrapOnce key target =>
    let s1 := (offByKey s key (.wrapOnce key target)).1
    let s2 := (offByKey s1 key target).1
    (s2, .handlerCall (.wrapOnce key target) d name)

/-- The `forEach` over the assembled handler list: the list itself is fixed
before the first invocation, while the handler store may be mutated by the
invocations. -/
def runDispatch (s : HooksState ι) (name : IHName) (d : α) :
    List HandlerVal → HooksState ι × List (CallEntry α)
  | [] => (s, [])
  | h :: rest =>
    let r1 := applyHandler s name d h
    let r2 := runDispatch r1.1 name d rest
    (r2.1, r1.2 :: r2.2)

/-- The handler list assembled inside `emit`'s completion callback: a copy
of the exact-name list, then every filter-keyed handler whose filter accepts
the name. -/
def assembleHandlers (s : HooksState ι) (name : IHName) : List HandlerInfo :=
  ((alGet s.handlers (.concrete name)).getD []) ++
    ((alGet s.handlers .filter).getD []).filter
      (fun info => match info.name with | .fn p => p name | .str _ => false)

/-- `emit`: validate synchronously (resolving and caching the chain or
throwing), then — in the deferred phase — transform the payload through the
chain and, if the chain completed, dispatch the `done` callback (when
supplied) followed by the assembled handlers.  The third component is the
ordered list of observable callback invocations; `none` overall is
nontermination of resolution. -/
def emit (s : HooksState (α → Option α)) (name : IHName) (d : α) (withDone : Bool)
    (fuel : Nat) :
    Option (HooksState (α → Option α) × Option HookError × List (CallEntry α)) :=
  match _getOrderedInterceptors s name fuel with
  | none => none
  | some (.error e) => some (s, some e, [])
  | some (.ok (_, s1)) =>
    match _transform s1 name d fuel with
    | none => none
    | some (.error e) => some (s1, some e, [])
    | some (.ok (s2, none)) => some (s2, none, [])
    | some (.ok (s2, some finalData)) =>
      let vals := (assembleHandlers s2 name).map (·.handler)
      let disp := runDispatch s2 name finalData vals
      some (disp.1, none,
        (if withDone then [CallEntry.doneCall finalData name] else []) ++ disp.2)

/-! ### Specification-side helpers -/

/-- The key list of a pool. -/
def keysOf (map : List (IHId × InterceptorInfo ι)) : List IHId :=
  map.map Prod.fst

/-- A pool is well-keyed when every record is stored under its own id (an
invariant of the interceptor store, stated as a hypothesis for theorems
about arbitrary pools). -/
def WellKeyed (map : List (IHId × InterceptorInfo ι)) : Prop :=
  ∀ e ∈ map, e.2.id = e.1

/-- `y` must precede `x` in a bucket's pool: `y` is in `x`'s `after` set, or
`x` is in `y`'s `before` set. -/
def MustPrecede (map : List (IHId × InterceptorInfo ι)) (y x : IHId) : Prop :=
  (∃ i, alGet map x = some i ∧ y ∈ i.conditions.after) ∨
  (∃ i, alGet map y = some i ∧ x ∈ i.conditions.before)

/-- Restrict a record's `after`/`before` sets to ids present in a key list
(used to state that out-of-pool references are inert). -/
def restrictInfo (keys : List IHId) (i : InterceptorInfo ι) : InterceptorInfo ι :=
  { i with conditions :=
      { i.conditions with
          after := i.conditions.after.filter (fun a => decide (a ∈ keys))
          before := i.conditions.before.filter (fun b => decide (b ∈ keys)) } }

/-- Restrict every record of a pool to in-pool `after`/`before` references. -/
def restrictPool (map : List (IHId × InterceptorInfo ι)) :
    List (IHId × InterceptorInfo ι) :=
  map.map (fun e => (e.1, restrictInfo (keysOf map) e.2))

/-- Reference behaviour of the continuation chain on a payload: thread the
payload through the transforms, `none` as soon as one withholds its
continuation. -/
def chainSteps (ts : List (α → Option α)) (d : α) : Option α :=
  match ts with
  | [] => some d
  | t :: rest =>
    match t d with
    | some d' => chainSteps rest d'
    | none => none

/-! ### Concrete instances used by counterexamples and witnesses -/

/-- Transform payload type used in concrete runs. -/
abbrev NatTF := Nat → Option Nat

/-- A transform that continues with the payload plus one. -/
def tfInc : NatTF := fun d => some (d + 1)

/-- A transform that continues with ten times the payload. -/
def tfTen : NatTF := fun d => some (d * 10)

/-- A transform that withholds its continuation. -/
def tfHalt : NatTF := fun _ => none

/-- C1 scenario: one interceptor `"a"` under `"x"`. -/
def c1s0 : HooksState NatTF := (inject {} (.str "x") "a" tfInc {}).1

/-- C1 scenario: the state after one full `_transform` run of `"x"`. -/
def c1s1 : HooksState NatTF :=
  match _transform c1s0 "x" 0 2 with
  | some (.ok (s, _)) => s
  | _ => {}

/-- C1 scenario: the state after a second `_transform` run of `"x"`. -/
def c1s2 : HooksState NatTF :=
  match _transform c1s1 "x" 0 2 with
  | some (.ok (s, _)) => s
  | _ => {}

/-- C2 scenario: a record of the partial-progress-cycle pool. -/
def c2info (i : IHId) (aft : List IHId) : InterceptorInfo Unit :=
  { id := i, injector := (), name := .str "x",
    conditions := { after := aft, before := [], conflicts := [], depends := [], order := .mid } }

/-- C2 scenario: pool where `"a"` is free and `"b"`/`"c"` form an `after`
cycle. -/
def c2pool : List (IHId × InterceptorInfo Unit) :=
  [("a", c2info "a" []), ("b", c2info "b" ["c"]), ("c", c2info "c" ["b"])]

/-- C2 scenario: the mid bucket of the separated pool. -/
def c2mid : List (IHId × InterceptorInfo Unit) := (_separateInterceptors c2pool).2.1

/-- C2 scenario: the same pool built through `inject` calls. -/
def c2State : HooksState Unit :=
  (inject
    ((inject
      ((inject ({} : HooksState Unit) (.str "x") "a" () {}).1)
      (.str "x") "b" () { after := .one "c" }).1)
    (.str "x") "c" () { after := .one "b" }).1

/-- C3 scenario: the filter used to register the predicate interceptor. -/
def c3filter : NameOrFilter := .fn (fun n => decide (n = "x"))

/-- C3 scenario: one filter-keyed interceptor `"a"` with injector `7`. -/
def c3s0 : HooksState Nat := (inject ({} : HooksState Nat) c3filter "a" 7 {}).1

/-- C3 scenario: the state after `validate("x")` populated the cache. -/
def c3s1 : HooksState Nat :=
  match validateNamed c3s0 "x" 2 with
  | some (.ok s) => s
  | _ => {}

/-- C3 scenario: the state after `remove(filter, "a")`. -/
def c3s2 : HooksState Nat := (remove c3s1 c3filter "a").1

/-- C4 scenario: key `"x"` holds the single record `"a"`. -/
def c4s0 : HooksState Unit := (inject ({} : HooksState Unit) (.str "x") "a" () {}).1

/-- C6 scenario: a record with given `conflicts` and `depends`. -/
def c6info (i : IHId) (cf dp : List IHId) : InterceptorInfo Unit :=
  { id := i, injector := (), name := .str "x",
    conditions := { after := [], before := [], conflicts := cf, depends := dp, order := .mid } }

/-- C6 scenario: `"one"` conflicts with the present `"two"`, while `"two"`
depends on the absent `"zz"`. -/
def c6pool : List (IHId × InterceptorInfo Unit) :=
  [("one", c6info "one" ["two"] []), ("two", c6info "two" [] ["zz"])]

/-- A record with no `depends`/`conflicts` violation against a pool. -/
def RecordClean (map : List (IHId × InterceptorInfo ι)) (info : InterceptorInfo ι) :
    Prop :=
  (∀ d ∈ info.conditions.depends, alHas map d = true) ∧
  (∀ c ∈ info.conditions.conflicts, alHas map c = false)

/-- `err` is the first violation of one record, in the order the source
checks: the first absent id in its `depends` list, else — when every
`depends` id is present — the first present id in its `conflicts` list. -/
def FirstViolationOf (map : List (IHId × InterceptorInfo ι))
    (info : InterceptorInfo ι) (err : HookError) : Prop :=
  (∃ d1 d d2, info.conditions.depends = d1 ++ d :: d2 ∧
    (∀ d2m ∈ d1, alHas map d2m = true) ∧ alHas map d = false ∧
    err = .missingDependency info.id d) ∨
  ((∀ d ∈ info.conditions.depends, alHas map d = true) ∧
    ∃ c1 c c2, info.conditions.conflicts = c1 ++ c :: c2 ∧
      (∀ c2m ∈ c1, alHas map c2m = false) ∧ alHas map c = true ∧
      err = .conflictsWith info.id c)

/-- C7 scenario: id `"a"` under `"x"`, with the cache for `"x"` populated by
`validate("x")`. -/
def c7s0 : HooksState Unit :=
  match validateNamed c4s0 "x" 2 with
  | some (.ok s) => s
  | _ => {}

/-- C5 witness pool: mid-bucket records `"one"` (before `"two"`), `"two"`
(after `"one"`), `"three"` (before `"two"`), as in the repository's ordering
test. -/
def c5info (i : IHId) (aft bef : List IHId) : InterceptorInfo Unit :=
  { id := i, injector := (), name := .str "t",
    conditions := { after := aft, before := bef, conflicts := [], depends := [], order := .mid } }

/-- C5 witness pool. -/
def c5pool : List (IHId × InterceptorInfo Unit) :=
  [("one", c5info "one" [] ["two"]), ("two", c5info "two" ["one"] []),
   ("three", c5info "three" [] ["two"])]

/-- C5 witness: the pool built through `inject` calls. -/
def c5State : HooksState Unit :=
  (inject
    ((inject
      ((inject ({} : HooksState Unit) (.str "t") "one" ()
        { before := .one "two" }).1)
      (.str "t") "two" () { after := .one "one" }).1)
    (.str "t") "three" () { before := .one "two" }).1

/-- C5 witness: the resolved mid-bucket record order of `c5pool`. -/
def c5res : List (InterceptorInfo Unit) :=
  match _orderInterceptorsInfo c5pool 3 with
  | some (.ok r) => r
  | _ => []

/-- C9 witness scenario: one exact-name handler under `"e"`. -/
def c9s0 : HooksState NatTF := on' ({} : HooksState NatTF) (.str "e") (.plain 1)

/-! ### Lemmas about the association-list operations -/

theorem find?_map_self [DecidableEq κ] (m : List (κ × β)) (k : κ) (v : β)
    (hhas : alHas m k = true) :
    (m.map (fun e => if e.1 = k then (k, v) else e)).find? (fun e => decide (e.1 = k)) =
      some (k, v) := by
  induction m with
  | nil => simp [alHas] at hhas
  | cons e t ih =>
    by_cases h : e.1 = k
    · simp [List.find?, h]
    · have h2 : alHas t k = true := by simpa [alHas, h] using hhas
      simpa [List.find?, h] using ih h2

theorem find?_append_self [DecidableEq κ] (m : List (κ × β)) (k : κ) (v : β)
    (hhas : ¬ alHas m k = true) :
    (m ++ [(k, v)]).find? (fun e => decide (e.1 = k)) = some (k, v) := by
  induction m with
  | nil => simp [List.find?]
  | cons e t ih =>
    have hcons : alHas (e :: t) k = (decide (e.1 = k) || alHas t k) := rfl
    have h : ¬ e.1 = k := fun h => hhas (by rw [hcons, h]; simp)
    have h2 : ¬ alHas t k = true := fun h2 => hhas (by rw [hcons, h2, Bool.or_true])
    simpa [List.find?, h] using ih h2

theorem alGet_alSet_self [DecidableEq κ] (m : List (κ × β)) (k : κ) (v : β) :
    alGet (alSet m k v) k = some v := by
  by_cases hhas : alHas m k = true
  · simp [alSet, alGet, hhas, find?_map_self m k v hhas]
  · simp [alSet, alGet, hhas, find?_append_self m k v hhas]

theorem alGet_alDelete_self [DecidableEq κ] (m : List (κ × β)) (k : κ) :
    alGet (alDelete m k) k = none := by
  induction m with
  | nil => rfl
  | cons e t ih =>
    by_cases h : e.1 = k
    · simp [alDelete, alGet, List.filter_cons, List.find?, h]
    · simp [alDelete, alGet, List.filter_cons, List.find?, h]

theorem alHas_alDelete_self [DecidableEq κ] (m : List (κ × β)) (k : κ) :
    alHas (alDelete m k) k = false := by
  induction m with
  | nil => rfl
  | cons e t ih =>
    by_cases h : e.1 = k
    · simp [alDelete, alHas, List.filter_cons, h]
    · simp [alDelete, alHas, List.filter_cons, h]


/-! ### Claim C1 -/

/-- C1: refuted — the cached resolved chain is consumed by execution.  After
one completed `_transform` run of `"x"` (which transformed the payload `0`
to `1`), the interceptor store still holds the interceptor `"a"`, yet the
cache entry for `"x"` has become the empty list, and a second run with no
intervening mutation applies no transform at all (payload `0` stays `0`). -/
theorem claim_C1_cache_consumed :
    _transform c1s0 "x" 0 2 = some (.ok (c1s1, some 1)) ∧
    alHas ((alGet c1s1.interceptors (.concrete "x")).getD []) "a" = true ∧
    alGet c1s1.interceptorsOrdered (.concrete "x") = some [] ∧
    _transform c1s1 "x" 0 2 = some (.ok (c1s2, some 0)) :=
  ⟨rfl, rfl, rfl, rfl⟩

/-! ### Claim C2 -/

theorem c2_loop_fix : ∀ (fuel : Nat) (res : List (InterceptorInfo Unit)),
    orderLoopGo c2mid 3 fuel ["b", "c"] res = none
  | 0, _ => rfl
  | (n + 1), res => by
    rw [show orderLoopGo c2mid 3 (n + 1) ["b", "c"] res =
        orderLoopGo c2mid 3 n ["b", "c"] (res ++ []) from rfl]
    exact c2_loop_fix n (res ++ [])

theorem c2_mid_none (n : Nat) : _orderInterceptors c2mid (n + 1) = none := by
  have hloop : orderLoopGo c2mid ((c2mid.map Prod.fst).length) (n + 1)
      (c2mid.map Prod.fst) [] = none := by
    rw [show orderLoopGo c2mid ((c2mid.map Prod.fst).length) (n + 1)
        (c2mid.map Prod.fst) [] =
        orderLoopGo c2mid 3 n ["b", "c"] ([] ++ [c2info "a" []]) from rfl]
    exact c2_loop_fix n ([] ++ [c2info "a" []])
  unfold _orderInterceptors _orderInterceptorsInfo
  rw [hloop]
  rfl

theorem getOrdered_none_of_parts {ι : Type} (s : HooksState ι) (name : IHName)
    (fuel : Nat) (mp : List (IHId × InterceptorInfo ι)) (p : List ι)
    (hc : alGet s.interceptorsOrdered (.concrete name) = none)
    (hg : _getInterceptors s name = .ok mp)
    (hv : _verifyInterceptors mp = none)
    (hp : _orderInterceptors (_separateInterceptors mp).1 fuel = some (.ok p))
    (hm : _orderInterceptors (_separateInterceptors mp).2.1 fuel = none) :
    _getOrderedInterceptors s name fuel = none := by
  unfold _getOrderedInterceptors
  simp only [hc, hg, hv, hp, hm]

/-- C2: refuted — on a pool where `"a"` is free and `"b"`/`"c"` form an
`after` cycle, the worklist emits `"a"` in its first pass, after which the
remaining count (2) never again equals the never-updated initial count (3),
so the `do ... while` loop spins forever: resolution diverges for every
fuel and the `CircularDependencyError` throw is unreachable. -/
theorem claim_C2_partial_cycle_diverges :
    ∀ fuel : Nat, _getOrderedInterceptors c2State "x" fuel = none := by
  intro fuel
  match fuel with
  | 0 => rfl
  | (n + 1) =>
    exact getOrdered_none_of_parts c2State "x" (n + 1) c2pool [] rfl rfl rfl rfl
      (c2_mid_none n)

/-! ### Claim C3 -/

/-- C3: refuted on the `remove` side — after a filter-keyed interceptor is
registered and `validate("x")` caches the chain `[7]` for `"x"`, removing
that interceptor through its filter key succeeds and empties the filter
pool, yet the cache entry for `"x"` still holds `[7]`: `remove` with a
predicate key deletes only the (never existing) cache entry under the
filter symbol and invalidates nothing. -/
theorem claim_C3_remove_filter_stale_cache :
    validateNamed c3s0 "x" 2 = some (.ok c3s1) ∧
    alGet c3s1.interceptorsOrdered (.concrete "x") = some [7] ∧
    remove c3s1 c3filter "a" = (c3s2, none) ∧
    alGet c3s2.interceptors .filter = none ∧
    alGet c3s2.interceptorsOrdered (.concrete "x") = some [7] :=
  ⟨rfl, rfl, rfl, rfl, rfl⟩

/-! ### Claim C4 -/

/-- C4 counterexample: key `"x"` has the non-empty record set `{"a"}` not
containing `"b"`, yet `remove("x", "b")` succeeds instead of failing with
`NotFoundError`. -/
theorem claim_C4_counterexample :
    (alGet c4s0.interceptors (.concrete "x")).isSome = true ∧
    alHas ((alGet c4s0.interceptors (.concrete "x")).getD []) "b" = false ∧
    (remove c4s0 (.str "x") "b").2 = none :=
  ⟨rfl, rfl, rfl⟩

/-- C4 amended: `remove(key, id)` fails with `NotFoundError` exactly when
the key has no record set at all; when the key's record set exists the call
succeeds even if the id is absent, and afterwards no record with the id
remains under the key; if the key's record set became empty the key entry
itself is dropped. -/
theorem claim_C4_amended {ι : Type} (s : HooksState ι) (name : NameOrFilter)
    (id : IHId) :
    ((remove s name id).2 ≠ none ↔ alGet s.interceptors (toKey name) = none) ∧
    (∀ mp, alGet s.interceptors (toKey name) = some mp →
      (remove s name id).2 = none ∧
      (∀ mp2, alGet (remove s name id).1.interceptors (toKey name) = some mp2 →
        alHas mp2 id = false) ∧
      (alDelete mp id = [] →
        alGet (remove s name id).1.interceptors (toKey name) = none)) := by
  cases hg : alGet s.interceptors (toKey name) with
  | none =>
    exact ⟨⟨fun _ => rfl, fun _ => by simp [remove, hg]⟩,
      fun mp hmp => Option.noConfusion hmp⟩
  | some mp =>
    constructor
    · constructor
      · intro hne
        exact absurd (show (remove s name id).2 = none by simp [remove, hg]) hne
      · intro h
        exact Option.noConfusion h
    · intro mp2 hmp2
      injection hmp2 with he
      subst he
      refine ⟨by simp [remove, hg], ?_, ?_⟩
      · intro mp3 hmp3
        by_cases hlen : (alDelete mp id).length = 0
        · rw [show (remove s name id).1.interceptors =
              alDelete s.interceptors (toKey name) from by simp [remove, hg, hlen]]
            at hmp3
          rw [alGet_alDelete_self] at hmp3
          exact Option.noConfusion hmp3
        · rw [show (remove s name id).1.interceptors =
              alSet s.interceptors (toKey name) (alDelete mp id) from by
                simp [remove, hg, hlen]] at hmp3
          rw [alGet_alSet_self] at hmp3
          injection hmp3 with he2
          subst he2
          exact alHas_alDelete_self mp id
      · intro hnil
        have hlen : (alDelete mp id).length = 0 := by rw [hnil]; rfl
        rw [show (remove s name id).1.interceptors =
            alDelete s.interceptors (toKey name) from by simp [remove, hg, hlen]]
        exact alGet_alDelete_self s.interceptors (toKey name)

/-- C4 witness: removing the present id `"a"` under `"x"` succeeds and drops
the emptied key entry. -/
theorem claim_C4_witness :
    (remove c4s0 (.str "x") "a").2 = none ∧
    alGet (remove c4s0 (.str "x") "a").1.interceptors (.concrete "x") = none := by
  have h := (claim_C4_amended c4s0 (.str "x") "a").2 _ rfl
  exact ⟨h.1, h.2.2 rfl⟩

/-! ### Claim C6 -/

theorem verifyRecordErr_eq_none {ι : Type} (map : List (IHId × InterceptorInfo ι))
    (info : InterceptorInfo ι) :
    verifyRecordErr map info = none ↔
      (∀ d ∈ info.conditions.depends, alHas map d = true) ∧
      (∀ c ∈ info.conditions.conflicts, alHas map c = false) := by
  cases hd : info.conditions.depends.find? (fun d => ! alHas map d) with
  | some d =>
    have hdm := List.mem_of_find?_eq_some hd
    have hdp : alHas map d = false := by simpa using List.find?_some hd
    simp only [verifyRecordErr, hd]
    constructor
    · intro h
      exact Option.noConfusion h
    · intro h
      rw [h.1 d hdm] at hdp
      exact Bool.noConfusion hdp
  | none =>
    have hdall : ∀ d ∈ info.conditions.depends, alHas map d = true := by
      intro d hdm
      have := List.find?_eq_none.mp hd d hdm
      simpa using this
    cases hc : info.conditions.conflicts.find? (fun c => alHas map c) with
    | some c =>
      have hcm := List.mem_of_find?_eq_some hc
      have hcp : alHas map c = true := List.find?_some hc
      simp only [verifyRecordErr, hd, hc]
      constructor
      · intro h
        exact Option.noConfusion h
      · intro h
        rw [h.2 c hcm] at hcp
        exact Bool.noConfusion hcp
    | none =>
      have hcall : ∀ c ∈ info.conditions.conflicts, alHas map c = false := by
        intro c hcm
        have := List.find?_eq_none.mp hc c hcm
        simpa using this
      simp only [verifyRecordErr, hd, hc]
      exact iff_of_true trivial ⟨hdall, hcall⟩

theorem verifyRecordErr_missing {ι : Type} (map : List (IHId × InterceptorInfo ι))
    (info : InterceptorInfo ι) (i d : IHId)
    (h : verifyRecordErr map info = some (.missingDependency i d)) :
    info.id = i ∧ d ∈ info.conditions.depends ∧ alHas map d = false := by
  cases hd : info.conditions.depends.find? (fun x => ! alHas map x) with
  | some d2 =>
    simp only [verifyRecordErr, hd, Option.some.injEq,
      HookError.missingDependency.injEq] at h
    obtain ⟨h1, h2⟩ := h
    subst h2
    exact ⟨h1, List.mem_of_find?_eq_some hd, by simpa using List.find?_some hd⟩
  | none =>
    cases hc : info.conditions.conflicts.find? (fun c => alHas map c) with
    | some c2 => simp [verifyRecordErr, hd, hc] at h
    | none => simp [verifyRecordErr, hd, hc] at h

theorem verifyRecordErr_conflict {ι : Type} (map : List (IHId × InterceptorInfo ι))
    (info : InterceptorInfo ι) (i c : IHId)
    (h : verifyRecordErr map info = some (.conflictsWith i c)) :
    info.id = i ∧ c ∈ info.conditions.conflicts ∧ alHas map c = true := by
  cases hd : info.conditions.depends.find? (fun x => ! alHas map x) with
  | some d2 => simp [verifyRecordErr, hd] at h
  | none =>
    cases hc : info.conditions.conflicts.find? (fun x => alHas map x) with
    | some c2 =>
      simp only [verifyRecordErr, hd, hc, Option.some.injEq,
        HookError.conflictsWith.injEq] at h
      obtain ⟨h1, h2⟩ := h
      subst h2
      exact ⟨h1, List.mem_of_find?_eq_some hc, List.find?_some hc⟩
    | none => simp [verifyRecordErr, hd, hc] at h

theorem verifyRecordErr_shape {ι : Type} (map : List (IHId × InterceptorInfo ι))
    (info : InterceptorInfo ι) (err : HookError)
    (h : verifyRecordErr map info = some err) :
    (∃ i d, err = .missingDependency i d) ∨ ∃ i c, err = .conflictsWith i c := by
  cases hd : info.conditions.depends.find? (fun x => ! alHas map x) with
  | some d2 =>
    simp only [verifyRecordErr, hd, Option.some.injEq] at h
    exact Or.inl ⟨info.id, d2, h.symm⟩
  | none =>
    cases hc : info.conditions.conflicts.find? (fun x => alHas map x) with
    | some c2 =>
      simp only [verifyRecordErr, hd, hc, Option.some.injEq] at h
      exact Or.inr ⟨info.id, c2, h.symm⟩
    | none => simp [verifyRecordErr, hd, hc] at h

theorem verify_none_iff {ι : Type} (map : List (IHId × InterceptorInfo ι)) :
    _verifyInterceptors map = none ↔ ∀ e ∈ map, verifyRecordErr map e.2 = none := by
  unfold _verifyInterceptors
  rw [List.findSome?_eq_none_iff]
  constructor
  · intro h e he
    exact h e.2 (List.mem_map_of_mem _ he)
  · intro h a ha
    rcases List.mem_map.mp ha with ⟨e, he, rfl⟩
    exact h e he

theorem verify_some_exists {ι : Type} (map : List (IHId × InterceptorInfo ι))
    (err : HookError) (h : _verifyInterceptors map = some err) :
    ∃ e ∈ map, verifyRecordErr map e.2 = some err := by
  unfold _verifyInterceptors at h
  rcases List.exists_of_findSome?_eq_some h with ⟨a, ha, hfa⟩
  rcases List.mem_map.mp ha with ⟨e, he, rfl⟩
  exact ⟨e, he, hfa⟩

/-- C6 counterexample: in a pool where record `"one"` (iterated first) has a
present `conflicts` id `"two"` and record `"two"` has an absent `depends` id
`"zz"`, validation reports `ConflictError`, not the `MissingDependencyError`
the claim promises whenever a `depends` id is absent. -/
theorem claim_C6_counterexample :
    _verifyInterceptors c6pool = some (.conflictsWith "one" "two") ∧
    ("two", c6info "two" [] ["zz"]) ∈ c6pool ∧
    "zz" ∈ (c6info "two" [] ["zz"]).conditions.depends ∧
    alHas c6pool "zz" = false := by
  refine ⟨rfl, ?_, ?_, rfl⟩
  · simp [c6pool]
  · simp [c6info]

theorem find?_eq_some_split {α : Type} {p : α → Bool} :
    ∀ {l : List α} {a : α}, l.find? p = some a →
      p a = true ∧ ∃ l1 l2, l = l1 ++ a :: l2 ∧ ∀ x ∈ l1, p x = false := by
  intro l
  induction l with
  | nil => intro a h; exact Option.noConfusion h
  | cons b t ih =>
    intro a h
    cases hp : p b with
    | true =>
      rw [List.find?_cons_of_pos _ hp] at h
      injection h with h
      subst h
      exact ⟨hp, [], t, rfl, by intro x hx; cases hx⟩
    | false =>
      rw [List.find?_cons_of_neg _ (by simp [hp])] at h
      obtain ⟨hpa, l1, l2, hsplit, hpre⟩ := ih h
      refine ⟨hpa, b :: l1, l2, by rw [hsplit]; rfl, ?_⟩
      intro x hx
      rcases List.mem_cons.mp hx with rfl | hx2
      · exact hp
      · exact hpre x hx2

theorem find?_eq_some_of_split {α : Type} {p : α → Bool} (l1 : List α) (a : α)
    (l2 : List α) (hpa : p a = true) (hpre : ∀ x ∈ l1, p x = false) :
    (l1 ++ a :: l2).find? p = some a := by
  induction l1 with
  | nil => simp [List.find?_cons_of_pos _ hpa]
  | cons b t ih =>
    have hb : p b = false := hpre b (List.mem_cons_self b t)
    rw [List.cons_append, List.find?_cons_of_neg _ (by simp [hb])]
    exact ih (fun x hx => hpre x (List.mem_cons_of_mem b hx))

theorem findSome?_eq_some_split {α β : Type} {f : α → Option β} :
    ∀ {l : List α} {b : β}, l.findSome? f = some b →
      ∃ l1 a l2, l = l1 ++ a :: l2 ∧ (∀ x ∈ l1, f x = none) ∧ f a = some b := by
  intro l
  induction l with
  | nil => intro b h; exact Option.noConfusion h
  | cons a t ih =>
    intro b h
    cases hfa : f a with
    | some c =>
      rw [List.findSome?_cons, hfa] at h
      injection h with h
      subst h
      exact ⟨[], a, t, rfl, fun x hx => absurd hx (List.not_mem_nil x), hfa⟩
    | none =>
      rw [List.findSome?_cons, hfa] at h
      obtain ⟨l1, a2, l2, hsplit, hpre, hfa2⟩ := ih h
      refine ⟨a :: l1, a2, l2, by rw [hsplit]; rfl, ?_, hfa2⟩
      intro x hx
      rcases List.mem_cons.mp hx with rfl | hx2
      · exact hfa
      · exact hpre x hx2

theorem findSome?_eq_some_of_split {α β : Type} {f : α → Option β} (l1 : List α)
    (a : α) (l2 : List α) {b : β} (hpre : ∀ x ∈ l1, f x = none)
    (hfa : f a = some b) : (l1 ++ a :: l2).findSome? f = some b := by
  induction l1 with
  | nil => rw [List.nil_append, List.findSome?_cons, hfa]
  | cons x t ih =>
    rw [List.cons_append, List.findSome?_cons, hpre x (List.mem_cons_self x t)]
    exact ih (fun y hy => hpre y (List.mem_cons_of_mem x hy))

theorem map_snd_split {ι : Type} :
    ∀ (map : List (IHId × InterceptorInfo ι)) (l1 : List (InterceptorInfo ι))
      (a : InterceptorInfo ι) (l2 : List (InterceptorInfo ι)),
      map.map Prod.snd = l1 ++ a :: l2 →
      ∃ m1 e m2, map = m1 ++ e :: m2 ∧ m1.map Prod.snd = l1 ∧ e.2 = a ∧
        m2.map Prod.snd = l2 := by
  intro map
  induction map with
  | nil =>
    intro l1 a l2 h
    cases l1 <;> exact List.noConfusion h
  | cons p t ih =>
    intro l1 a l2 h
    cases l1 with
    | nil =>
      rw [List.map_cons, List.nil_append] at h
      injection h with h1 h2
      exact ⟨[], p, t, rfl, rfl, h1, h2⟩
    | cons b l1t =>
      rw [List.map_cons, List.cons_append] at h
      injection h with h1 h2
      obtain ⟨m1, e, m2, hsplit, hm1, he, hm2⟩ := ih l1t a l2 h2
      exact ⟨p :: m1, e, m2, by rw [hsplit]; rfl, by rw [List.map_cons, hm1, h1],
        he, hm2⟩

theorem verifyRecordErr_some_iff {ι : Type} (map : List (IHId × InterceptorInfo ι))
    (info : InterceptorInfo ι) (err : HookError) :
    verifyRecordErr map info = some err ↔ FirstViolationOf map info err := by
  constructor
  · intro h
    cases hd : info.conditions.depends.find? (fun d => ! alHas map d) with
    | some d =>
      simp only [verifyRecordErr, hd, Option.some.injEq] at h
      obtain ⟨hpd, l1, l2, hsplit, hpre⟩ := find?_eq_some_split hd
      refine Or.inl ⟨l1, d, l2, hsplit, ?_, by simpa using hpd, h.symm⟩
      intro x hx
      simpa using hpre x hx
    | none =>
      cases hc : info.conditions.conflicts.find? (fun c => alHas map c) with
      | some c =>
        simp only [verifyRecordErr, hd, hc, Option.some.injEq] at h
        obtain ⟨hpc, l1, l2, hsplit, hpre⟩ := find?_eq_some_split hc
        refine Or.inr ⟨?_, l1, c, l2, hsplit, hpre, hpc, h.symm⟩
        intro d hdm
        simpa using List.find?_eq_none.mp hd d hdm
      | none => simp [verifyRecordErr, hd, hc] at h
  · intro h
    rcases h with ⟨d1, d, d2, hsplit, hpre, habs, herr⟩ |
      ⟨hall, c1, c, c2, hsplit, hpre, hpresent, herr⟩
    · have hfind : info.conditions.depends.find? (fun x => ! alHas map x) =
          some d := by
        rw [hsplit]
        exact find?_eq_some_of_split d1 d d2 (by simp [habs])
          (fun x hx => by simp [hpre x hx])
      simp [verifyRecordErr, hfind, herr]
    · have hdnone : info.conditions.depends.find? (fun x => ! alHas map x) =
          none := by
        rw [List.find?_eq_none]
        intro x hx
        simp [hall x hx]
      have hfind : info.conditions.conflicts.find? (fun x => alHas map x) =
          some c := by
        rw [hsplit]
        exact find?_eq_some_of_split c1 c c2 hpresent hpre
      simp [verifyRecordErr, hdnone, hfind, herr]

theorem verify_some_iff {ι : Type} (map : List (IHId × InterceptorInfo ι))
    (err : HookError) :
    _verifyInterceptors map = some err ↔
      ∃ m1 e m2, map = m1 ++ e :: m2 ∧
        (∀ e2 ∈ m1, RecordClean map e2.2) ∧
        FirstViolationOf map e.2 err := by
  constructor
  · intro h
    unfold _verifyInterceptors at h
    obtain ⟨l1, a, l2, hsplit, hpre, hfa⟩ := findSome?_eq_some_split h
    obtain ⟨m1, e, m2, hms, hm1, he, hm2⟩ := map_snd_split map l1 a l2 hsplit
    refine ⟨m1, e, m2, hms, ?_, ?_⟩
    · intro e2 he2
      have hnone : verifyRecordErr map e2.2 = none := by
        apply hpre
        rw [← hm1]
        exact List.mem_map_of_mem _ he2
      exact (verifyRecordErr_eq_none map e2.2).mp hnone
    · rw [← he] at hfa
      exact (verifyRecordErr_some_iff map e.2 err).mp hfa
  · rintro ⟨m1, e, m2, hms, hclean, hfv⟩
    unfold _verifyInterceptors
    have hmap : map.map Prod.snd = m1.map Prod.snd ++ e.2 :: m2.map Prod.snd := by
      rw [hms, List.map_append, List.map_cons]
    rw [hmap]
    apply findSome?_eq_some_of_split
    · intro x hx
      obtain ⟨e2, he2, rfl⟩ := List.mem_map.mp hx
      exact (verifyRecordErr_eq_none map e2.2).mpr (hclean e2 he2)
    · exact (verifyRecordErr_some_iff map e.2 err).mpr hfv

/-- C6 amended: pool validation passes exactly when every record is clean
(all `depends` ids present, all `conflicts` ids absent); and it reports the
error `err` exactly when the pool splits into a clean prefix followed by a
record whose first violation — scanning its `depends` list first, then its
`conflicts` list — is `err`.  This pins the reported error to the first
violation in pool-iteration order, `depends` before `conflicts`: when both
kinds of violation exist, only the first one encountered is reported. -/
theorem claim_C6_amended {ι : Type} (map : List (IHId × InterceptorInfo ι)) :
    (_verifyInterceptors map = none ↔ ∀ e ∈ map, RecordClean map e.2) ∧
    (∀ err : HookError, _verifyInterceptors map = some err ↔
      ∃ m1 e m2, map = m1 ++ e :: m2 ∧
        (∀ e2 ∈ m1, RecordClean map e2.2) ∧
        FirstViolationOf map e.2 err) := by
  constructor
  · rw [verify_none_iff]
    constructor
    · intro h e he
      exact (verifyRecordErr_eq_none map e.2).mp (h e he)
    · intro h e he
      exact (verifyRecordErr_eq_none map e.2).mpr (h e he)
  · exact fun err => verify_some_iff map err

/-- C6 witness: the cycle pool (no `depends`/`conflicts`) validates, and in
the counterexample pool the first violation in iteration order — record
`"one"`'s present conflict `"two"` — is the reported error. -/
theorem claim_C6_witness :
    _verifyInterceptors c2pool = none ∧
    _verifyInterceptors c6pool = some (.conflictsWith "one" "two") := by
  constructor
  · refine (claim_C6_amended c2pool).1.mpr ?_
    intro e he
    simp only [c2pool, List.mem_cons, List.not_mem_nil, or_false] at he
    rcases he with h | h | h <;> subst h <;>
      exact ⟨fun d hd => absurd hd (List.not_mem_nil d),
        fun c hc => absurd hc (List.not_mem_nil c)⟩
  · refine ((claim_C6_amended c6pool).2 _).mpr ?_
    refine ⟨[], ("one", c6info "one" ["two"] []),
      [("two", c6info "two" [] ["zz"])], rfl,
      fun e2 he2 => absurd he2 (List.not_mem_nil e2), Or.inr ?_⟩
    exact ⟨fun d hd => absurd hd (List.not_mem_nil d), [], "two", [], rfl,
      fun c hc => absurd hc (List.not_mem_nil c), rfl, rfl⟩

/-! ### Claim C7 -/

/-- C7 counterexample: with the cache for `"x"` populated, injecting a
duplicate id `"a"` under `"x"` fails — yet afterwards the cache entry for
`"x"` is gone, because the cache invalidation runs before the duplicate
check. -/
theorem claim_C7_counterexample :
    alGet c7s0.interceptorsOrdered (.concrete "x") = some [()] ∧
    (inject c7s0 (.str "x") "a" () {}).2 = some (.duplicateId "a") ∧
    alGet (inject c7s0 (.str "x") "a" () {}).1.interceptorsOrdered
      (.concrete "x") = none :=
  ⟨rfl, rfl, rfl⟩

/-- C7 amended: `inject` fails with `DuplicateIdError` exactly when a record
with the same id exists under the same key, the interceptor store and the
handler store are modified only on success, and the record is appended with
its normalized conditions on success — but the resolved-chain cache
invalidation (the concrete name's entry, or the whole cache for a filter
key) happens before the duplicate check, so it occurs even when the call
fails. -/
theorem claim_C7_amended {ι : Type} (s : HooksState ι) (name : NameOrFilter)
    (id : IHId) (inj : ι) (cond : Conditions) :
    ((inject s name id inj cond).2 ≠ none ↔
      alHas ((alGet s.interceptors (toKey name)).getD []) id = true) ∧
    ((inject s name id inj cond).2 ≠ none →
      (inject s name id inj cond).2 = some (.duplicateId id) ∧
      (inject s name id inj cond).1.interceptors = s.interceptors) ∧
    (inject s name id inj cond).1.handlers = s.handlers ∧
    ((inject s name id inj cond).1.interceptorsOrdered =
      match name with
      | .fn _ => ([] : List (HKey × List ι))
      | .str n => alDelete s.interceptorsOrdered (.concrete n)) ∧
    ((inject s name id inj cond).2 = none →
      alGet (inject s name id inj cond).1.interceptors (toKey name) =
        some (alSet ((alGet s.interceptors (toKey name)).getD []) id
          { id := id, injector := inj, name := name,
            conditions := normalizeConditions cond })) := by
  cases name with
  | str n =>
    by_cases h : alHas ((alGet s.interceptors (HKey.concrete n)).getD []) id = true
    · refine ⟨?_, ?_, ?_, ?_, ?_⟩
      · simp [inject, toKey, h]
      · exact fun _ => ⟨by simp [inject, toKey, h], by simp [inject, toKey, h]⟩
      · simp [inject, toKey, h]
      · simp [inject, toKey, h]
      · intro hc
        rw [show (inject s (.str n) id inj cond).2 = some (.duplicateId id) from by
          simp [inject, toKey, h]] at hc
        exact Option.noConfusion hc
    · refine ⟨?_, ?_, ?_, ?_, ?_⟩
      · simp [inject, toKey, h]
      · intro hne
        exact absurd (show (inject s (.str n) id inj cond).2 = none from by
          simp [inject, toKey, h]) hne
      · simp [inject, toKey, h]
      · simp [inject, toKey, h]
      · intro _
        rw [show (inject s (.str n) id inj cond).1.interceptors =
            alSet s.interceptors (.concrete n)
              (alSet ((alGet s.interceptors (.concrete n)).getD []) id
                { id := id, injector := inj, name := .str n,
                  conditions := normalizeConditions cond }) from by
          simp [inject, toKey, h]]
        exact alGet_alSet_self _ _ _
  | fn p =>
    by_cases h : alHas ((alGet s.interceptors HKey.filter).getD []) id = true
    · refine ⟨?_, ?_, ?_, ?_, ?_⟩
      · simp [inject, toKey, h]
      · exact fun _ => ⟨by simp [inject, toKey, h], by simp [inject, toKey, h]⟩
      · simp [inject, toKey, h]
      · simp [inject, toKey, h]
      · intro hc
        rw [show (inject s (.fn p) id inj cond).2 = some (.duplicateId id) from by
          simp [inject, toKey, h]] at hc
        exact Option.noConfusion hc
    · refine ⟨?_, ?_, ?_, ?_, ?_⟩
      · simp [inject, toKey, h]
      · intro hne
        exact absurd (show (inject s (.fn p) id inj cond).2 = none from by
          simp [inject, toKey, h]) hne
      · simp [inject, toKey, h]
      · simp [inject, toKey, h]
      · intro _
        rw [show (inject s (.fn p) id inj cond).1.interceptors =
            alSet s.interceptors .filter
              (alSet ((alGet s.interceptors .filter).getD []) id
                { id := id, injector := inj, name := .fn p,
                  conditions := normalizeConditions cond }) from by
          simp [inject, toKey, h]]
        exact alGet_alSet_self _ _ _

/-- C7 witness: injecting the existing id `"a"` under `"x"` fails and leaves
the interceptor store unchanged. -/
theorem claim_C7_witness :
    (inject c4s0 (.str "x") "a" () {}).2 ≠ none ∧
    (inject c4s0 (.str "x") "a" () {}).1.interceptors = c4s0.interceptors := by
  have h := claim_C7_amended c4s0 (.str "x") "a" () {}
  have hne : (inject c4s0 (.str "x") "a" () {}).2 ≠ none := h.1.mpr rfl
  exact ⟨hne, (h.2.1 hne).2⟩

/-! ### Claim C8 -/

theorem runNextTrace_snd {α : Type} (ts : List (α → Option α)) (d : α) :
    (runNextTrace ts d).2 = chainSteps ts d := by
  induction ts generalizing d with
  | nil => rfl
  | cons t rest ih =>
    cases h : t d with
    | some d2 => simp [runNextTrace, chainSteps, h, ih]
    | none => simp [runNextTrace, chainSteps, h]

theorem runNextTrace_complete {α : Type} (ts : List (α → Option α)) (d dn : α)
    (h : chainSteps ts d = some dn) : runNextTrace ts d = (ts, some dn) := by
  induction ts generalizing d with
  | nil =>
    simp only [chainSteps, Option.some.injEq] at h
    subst h
    rfl
  | cons t rest ih =>
    cases ht : t d with
    | none => simp [chainSteps, ht] at h
    | some d2 =>
      simp only [chainSteps, ht] at h
      simp [runNextTrace, ht, ih d2 h]

theorem runNextTrace_halt {α : Type} (pre : List (α → Option α))
    (t : α → Option α) (post : List (α → Option α)) (d dk : α)
    (h1 : (runNextTrace pre d).2 = some dk) (h2 : t dk = none) :
    runNextTrace (pre ++ t :: post) d = (pre ++ [t], none) := by
  induction pre generalizing d with
  | nil =>
    simp only [runNextTrace, Option.some.injEq] at h1
    subst h1
    simp [runNextTrace, h2]
  | cons u rest ih =>
    cases hu : u d with
    | none => simp [runNextTrace, hu] at h1
    | some d2 =>
      simp only [runNextTrace, hu] at h1
      simp [runNextTrace, hu, ih d2 h1]

/-- C8: the chain executor drives the resolved chain by continuation
passing: on the empty chain the completion callback fires immediately with
the initial payload; when every transform calls its continuation, the
invoked sequence is exactly the chain, in order, and the completion callback
receives the final threaded payload; when a transform withholds its
continuation, it is the last transform invoked — the rest of the chain and
the completion callback are never reached and no error is produced. -/
theorem claim_C8_chain_executor {α : Type} (ts : List (α → Option α)) (d : α) :
    runNextTrace ([] : List (α → Option α)) d = ([], some d) ∧
    (runNextTrace ts d).2 = chainSteps ts d ∧
    (∀ dn, chainSteps ts d = some dn → runNextTrace ts d = (ts, some dn)) ∧
    (∀ pre (t : α → Option α) post dk,
      (runNextTrace pre d).2 = some dk → t dk = none →
      runNextTrace (pre ++ t :: post) d = (pre ++ [t], none)) :=
  ⟨rfl, runNextTrace_snd ts d, fun dn h => runNextTrace_complete ts d dn h,
   fun pre t post dk h1 h2 => runNextTrace_halt pre t post d dk h1 h2⟩

/-- C8 witness: a three-transform chain whose middle transform withholds the
continuation invokes exactly the first two transforms and never completes. -/
theorem claim_C8_witness :
    runNextTrace [tfInc, tfHalt, tfTen] 0 = ([tfInc, tfHalt], none) :=
  (claim_C8_chain_executor ([] : List NatTF) 0).2.2.2 [tfInc] tfHalt [tfTen] 1 rfl rfl


theorem applyHandler_snd {ι : Type} {α : Type} (s : HooksState ι) (name : IHName)
    (d : α) (h : HandlerVal) :
    (applyHandler s name d h).2 = CallEntry.handlerCall h d name := by
  cases h <;> rfl

theorem runDispatch_log {ι : Type} {α : Type} (s : HooksState ι) (name : IHName)
    (d : α) (vals : List HandlerVal) :
    (runDispatch s name d vals).2 =
      vals.map (fun h => CallEntry.handlerCall h d name) := by
  induction vals generalizing s with
  | nil => rfl
  | cons h rest ih => simp [runDispatch, applyHandler_snd, ih]

theorem getOrdered_preserves {ι : Type} (s : HooksState ι) (name : IHName)
    (fuel : Nat) (L : List ι) (s2 : HooksState ι)
    (h : _getOrderedInterceptors s name fuel = some (.ok (L, s2))) :
    s2.handlers = s.handlers ∧ s2.interceptors = s.interceptors := by
  cases hc : alGet s.interceptorsOrdered (.concrete name) with
  | some cached =>
    simp only [_getOrderedInterceptors, hc, Option.some.injEq, Except.ok.injEq,
      Prod.mk.injEq] at h
    obtain ⟨-, rfl⟩ := h
    exact ⟨rfl, rfl⟩
  | none =>
    cases hg : _getInterceptors s name with
    | error e => simp [_getOrderedInterceptors, hc, hg] at h
    | ok mp =>
      cases hv : _verifyInterceptors mp with
      | some e => simp [_getOrderedInterceptors, hc, hg, hv] at h
      | none =>
        cases hp : _orderInterceptors (_separateInterceptors mp).1 fuel with
        | none => simp [_getOrderedInterceptors, hc, hg, hv, hp] at h
        | some rp =>
          cases rp with
          | error e => simp [_getOrderedInterceptors, hc, hg, hv, hp] at h
          | ok p =>
            cases hm : _orderInterceptors (_separateInterceptors mp).2.1 fuel with
            | none => simp [_getOrderedInterceptors, hc, hg, hv, hp, hm] at h
            | some rm =>
              cases rm with
              | error e => simp [_getOrderedInterceptors, hc, hg, hv, hp, hm] at h
              | ok m =>
                cases hq : _orderInterceptors (_separateInterceptors mp).2.2 fuel with
                | none => simp [_getOrderedInterceptors, hc, hg, hv, hp, hm, hq] at h
                | some rq =>
                  cases rq with
                  | error e =>
                    simp [_getOrderedInterceptors, hc, hg, hv, hp, hm, hq] at h
                  | ok q =>
                    simp only [_getOrderedInterceptors, hc, hg, hv, hp, hm, hq,
                      Option.some.injEq, Except.ok.injEq, Prod.mk.injEq] at h
                    obtain ⟨-, rfl⟩ := h
                    exact ⟨rfl, rfl⟩

theorem transform_preserves {α : Type} (s : HooksState (α → Option α))
    (name : IHName) (d : α) (fuel : Nat) (s2 : HooksState (α → Option α))
    (r : Option α)
    (h : _transform s name d fuel = some (.ok (s2, r))) :
    s2.handlers = s.handlers ∧ s2.interceptors = s.interceptors := by
  cases hg : _getOrderedInterceptors s name fuel with
  | none => simp [_transform, hg] at h
  | some rg =>
    cases rg with
    | error e => simp [_transform, hg] at h
    | ok cs =>
      obtain ⟨chain, s1⟩ := cs
      have hpres := getOrdered_preserves s name fuel chain s1 hg
      simp only [_transform, hg, Option.some.injEq, Except.ok.injEq,
        Prod.mk.injEq] at h
      obtain ⟨h1, -⟩ := h
      subst h1
      exact ⟨hpres.1, hpres.2⟩

/-- C9: for an emission whose interceptor chain completes, the dispatched
invocation log is exactly: the `done` callback (when supplied) with the
final payload, then every handler registered under the exact name in
registration order, then every filter-keyed handler whose filter accepts the
name in registration order — each invoked once with the final payload and
the event name, and nothing else. -/
theorem claim_C9_dispatch_order {α : Type} (s : HooksState (α → Option α))
    (name : IHName) (d : α) (withDone : Bool) (fuel : Nat)
    (L : List (α → Option α)) (s1 s2 : HooksState (α → Option α)) (finalData : α)
    (h1 : _getOrderedInterceptors s name fuel = some (.ok (L, s1)))
    (h2 : _transform s1 name d fuel = some (.ok (s2, some finalData))) :
    emit s name d withDone fuel =
      some ((runDispatch s2 name finalData
          ((assembleHandlers s2 name).map (·.handler))).1,
        none,
        (if withDone then [CallEntry.doneCall finalData name] else []) ++
          ((assembleHandlers s2 name).map (·.handler)).map
            (fun h => CallEntry.handlerCall h finalData name)) ∧
    assembleHandlers s2 name =
      ((alGet s.handlers (.concrete name)).getD []) ++
        ((alGet s.handlers .filter).getD []).filter
          (fun info => match info.name with | .fn p => p name | .str _ => false) := by
  have hp1 := getOrdered_preserves s name fuel L s1 h1
  have hp2 := transform_preserves s1 name d fuel s2 (some finalData) h2
  constructor
  · simp only [emit, h1, h2, runDispatch_log]
  · show assembleHandlers s2 name = assembleHandlers s name
    unfold assembleHandlers
    rw [hp2.1, hp1.1]


/-- C9 witness: one exact-name handler, a supplied completion callback and
no interceptors — the log is the callback followed by the handler. -/
theorem claim_C9_witness :
    ∃ sf, emit c9s0 "e" 5 true 1 =
      some (sf, none,
        [CallEntry.doneCall 5 "e", CallEntry.handlerCall (.plain 1) 5 "e"]) := by
  have h := (claim_C9_dispatch_order c9s0 "e" 5 true 1 _ _ _ _ rfl rfl).1
  exact ⟨_, h⟩

theorem getOrdered_no_interceptors {ι : Type} (H : List (HKey × List HandlerInfo))
    (name : IHName) (n : Nat) :
    _getOrderedInterceptors
      ({ handlers := H, interceptors := [], interceptorsOrdered := [] } :
        HooksState ι) name (n + 1) =
      some (.ok ([],
        { handlers := H, interceptors := [],
          interceptorsOrdered := [(.concrete name, [])] })) := by
  have hg : _getInterceptors
      ({ handlers := H, interceptors := [], interceptorsOrdered := [] } :
        HooksState ι) name = .ok [] := by
    simp only [_getInterceptors, alGet, List.find?_nil, Option.map_none, Option.getD_none,
      List.foldlM_nil]
    rfl
  have ho : _orderInterceptors ([] : List (IHId × InterceptorInfo ι)) (n + 1) =
      some (.ok []) := by
    simp [_orderInterceptors, _orderInterceptorsInfo, orderLoopGo, computeWait,
      Except.map]
  simp [_getOrderedInterceptors, hg, ho, _verifyInterceptors,
    _separateInterceptors, alGet, alSet, alHas]

theorem transform_cached_empty {α : Type} (H : List (HKey × List HandlerInfo))
    (name : IHName) (d : α) (fuel : Nat) :
    _transform
      ({ handlers := H, interceptors := [],
         interceptorsOrdered := [(.concrete name, [])] } :
        HooksState (α → Option α)) name d fuel =
      some (.ok
        ({ handlers := H, interceptors := [],
           interceptorsOrdered := [(.concrete name, [])] }, some d)) := by
  have hc : alGet ([(HKey.concrete name, ([] : List (α → Option α)))])
      (HKey.concrete name) = some [] := by
    simp [alGet]
  simp [_transform, _getOrderedInterceptors, hc, runNextTrace, alSet, alHas]

theorem assemble_two {α : Type} (name : IHName) (a b : HandlerInfo)
    (I : List (HKey × List (IHId × InterceptorInfo (α → Option α))))
    (C : List (HKey × List (α → Option α))) :
    assembleHandlers
      ({ handlers := [(.concrete name, [a, b])], interceptors := I,
         interceptorsOrdered := C } : HooksState (α → Option α)) name =
      [a, b] := by
  simp [assembleHandlers, alGet]

theorem dispatch_once_pair {α : Type} (name : IHName) (hid : Nat) (d : α)
    (I : List (HKey × List (IHId × InterceptorInfo (α → Option α))))
    (C : List (HKey × List (α → Option α))) :
    runDispatch
      ({ handlers := [(.concrete name,
           [{ name := .str name, handler := .wrapOnce (.concrete name) (.plain hid) },
            { name := .str name, handler := .plain hid }])],
         interceptors := I, interceptorsOrdered := C } :
        HooksState (α → Option α)) name d
      [.wrapOnce (.concrete name) (.plain hid), .plain hid] =
      ({ handlers := [(.concrete name, [])], interceptors := I,
         interceptorsOrdered := C },
       [CallEntry.handlerCall (.wrapOnce (.concrete name) (.plain hid)) d name,
        CallEntry.handlerCall (.plain hid) d name]) := by
  simp [runDispatch, applyHandler, offByKey, alGet, alSet, alHas,
    List.findIdx?_cons, List.findIdx?_nil]

/-- C10: handler dispatch iterates a snapshot — the invocation log of a
dispatch is fully determined by the handler list assembled before the first
invocation, whatever the invocations do to the handler store — and
consequently a handler registered through `once` fires exactly once: in the
first emission its self-removing wrapper runs first (removing both
registrations from the live store), the wrapped handler still runs from the
snapshot, and a second emission invokes nothing. -/
theorem claim_C10_once_snapshot {α : Type} (name : IHName) (hid : Nat) (d : α)
    (fuel : Nat) (hfuel : 1 ≤ fuel) :
    (∀ (ι : Type) (s : HooksState ι) (nm : IHName) (dd : α)
      (vals : List HandlerVal),
      (runDispatch s nm dd vals).2 =
        vals.map (fun h => CallEntry.handlerCall h dd nm)) ∧
    ∃ s1, emit (once ({} : HooksState (α → Option α)) (.str name) (.plain hid))
        name d false fuel =
      some (s1, none,
        [CallEntry.handlerCall (.wrapOnce (.concrete name) (.plain hid)) d name,
         CallEntry.handlerCall (.plain hid) d name]) ∧
      emit s1 name d false fuel = some (s1, none, []) := by
  obtain ⟨n, rfl⟩ : ∃ n, fuel = n + 1 := ⟨fuel - 1, by omega⟩
  refine ⟨fun ι s nm dd vals => runDispatch_log s nm dd vals, ?_⟩
  have hs0 : once ({} : HooksState (α → Option α)) (.str name) (.plain hid) =
      { handlers := [(.concrete name,
          [{ name := .str name, handler := .wrapOnce (.concrete name) (.plain hid) },
           { name := .str name, handler := .plain hid }])],
        interceptors := [], interceptorsOrdered := [] } := by
    simp [once, on', toKey, alGet, alSet, alHas]
  refine ⟨{ handlers := [(.concrete name, [])], interceptors := [], interceptorsOrdered := [(.concrete name, [])] }, ?_, ?_⟩
  · rw [hs0]
    simp only [emit, getOrdered_no_interceptors, transform_cached_empty,
      assemble_two, List.map_cons, List.map_nil, dispatch_once_pair,
      Bool.false_eq_true, if_false, List.nil_append]
  · have hco : _getOrderedInterceptors
        ({ handlers := [(.concrete name, [])], interceptors := [],
           interceptorsOrdered := [(.concrete name, [])] } :
          HooksState (α → Option α)) name (n + 1) =
        some (.ok ([],
          { handlers := [(.concrete name, [])], interceptors := [],
            interceptorsOrdered := [(.concrete name, [])] })) := by
      simp [_getOrderedInterceptors, alGet]
    have hasm : assembleHandlers
        ({ handlers := [(.concrete name, [])], interceptors := [],
           interceptorsOrdered := [(.concrete name, [])] } :
          HooksState (α → Option α)) name = [] := by
      simp [assembleHandlers, alGet]
    simp only [emit, hco, transform_cached_empty, hasm, List.map_nil,
      runDispatch, Bool.false_eq_true, if_false, List.nil_append]

/-- C10 witness: a concrete `once` registration fires exactly once. -/
theorem claim_C10_witness :
    ∃ s1, emit (once ({} : HooksState NatTF) (.str "w") (.plain 9)) "w" 3 false 1 =
      some (s1, none,
        [CallEntry.handlerCall (.wrapOnce (.concrete "w") (.plain 9)) 3 "w",
         CallEntry.handlerCall (.plain 9) 3 "w"]) ∧
      emit s1 "w" 3 false 1 = some (s1, none, []) :=
  (claim_C10_once_snapshot "w" 9 3 1 (by decide)).2


/-! ### Claim C5: worklist soundness lemmas -/

theorem mem_waitAdd_self (w : List IHId) (x : IHId) : x ∈ waitAdd w x := by
  unfold waitAdd
  split
  · assumption
  · exact List.mem_append_right _ (List.mem_singleton.mpr rfl)

theorem mem_waitAdd_of_mem {w : List IHId} {u : IHId} (x : IHId) (h : u ∈ w) :
    u ∈ waitAdd w x := by
  unfold waitAdd
  split
  · exact h
  · exact List.mem_append_left _ h

theorem mem_beforeFold_of_mem {unresolved w : List IHId} {u : IHId}
    (l : List IHId) (h : u ∈ w) :
    u ∈ l.foldl (fun w b => if b ∈ unresolved then waitAdd w b else w) w := by
  induction l generalizing w with
  | nil => exact h
  | cons b rest ih =>
    simp only [List.foldl_cons]
    split
    · exact ih (mem_waitAdd_of_mem b h)
    · exact ih h

theorem mem_computeWaitStep_of_mem {ι : Type} (map : List (IHId × InterceptorInfo ι))
    (unresolved w : List IHId) (id : IHId) {u : IHId} (h : u ∈ w) :
    u ∈ computeWaitStep map unresolved w id := by
  unfold computeWaitStep
  cases alGet map id with
  | none => exact h
  | some info =>
    simp only []
    split
    · exact mem_beforeFold_of_mem _ (mem_waitAdd_of_mem id h)
    · exact mem_beforeFold_of_mem _ h

theorem mem_waitFold_of_mem {ι : Type} (map : List (IHId × InterceptorInfo ι))
    (unresolved : List IHId) {w : List IHId} {u : IHId} (l : List IHId)
    (h : u ∈ w) : u ∈ l.foldl (computeWaitStep map unresolved) w := by
  induction l generalizing w with
  | nil => exact h
  | cons x rest ih => exact ih (mem_computeWaitStep_of_mem map unresolved w x h)

theorem mem_beforeFold_self {unresolved w : List IHId} {x : IHId}
    (l : List IHId) (hxl : x ∈ l) (hxu : x ∈ unresolved) :
    x ∈ l.foldl (fun w b => if b ∈ unresolved then waitAdd w b else w) w := by
  induction l generalizing w with
  | nil => cases hxl
  | cons b rest ih =>
    simp only [List.foldl_cons]
    rcases List.mem_cons.mp hxl with rfl | hxl2
    · rw [if_pos hxu]
      exact mem_beforeFold_of_mem rest (mem_waitAdd_self w x)
    · split
      · exact ih hxl2
      · exact ih hxl2

theorem mem_step_of_after {ι : Type} (map : List (IHId × InterceptorInfo ι))
    (unresolved w : List IHId) (x : IHId) (info : InterceptorInfo ι)
    (hget : alGet map x = some info)
    (hany : info.conditions.after.any (fun a => decide (a ∈ unresolved)) = true) :
    x ∈ computeWaitStep map unresolved w x := by
  simp only [computeWaitStep, hget, hany, if_true]
  exact mem_beforeFold_of_mem _ (mem_waitAdd_self _ x)

theorem mem_step_of_before {ι : Type} (map : List (IHId × InterceptorInfo ι))
    (unresolved w : List IHId) (x y : IHId) (info : InterceptorInfo ι)
    (hget : alGet map y = some info)
    (hmem : x ∈ info.conditions.before) (hx : x ∈ unresolved) :
    x ∈ computeWaitStep map unresolved w y := by
  simp only [computeWaitStep, hget]
  split
  · exact mem_beforeFold_self _ hmem hx
  · exact mem_beforeFold_self _ hmem hx

theorem mem_wait_of_mustPrecede {ι : Type} (map : List (IHId × InterceptorInfo ι))
    (unresolved : List IHId) (x y : IHId)
    (hprec : MustPrecede map y x)
    (hy : y ∈ unresolved) (hx : x ∈ unresolved) :
    x ∈ computeWait map unresolved := by
  rcases hprec with ⟨info, hget, hmem⟩ | ⟨info, hget, hmem⟩
  · obtain ⟨l1, l2, heq⟩ := List.append_of_mem hx
    have hany : info.conditions.after.any (fun a => decide (a ∈ unresolved)) = true :=
      List.any_eq_true.mpr ⟨y, hmem, by simpa using hy⟩
    rw [computeWait, heq, List.foldl_append, List.foldl_cons]
    exact mem_waitFold_of_mem map (l1 ++ x :: l2) l2
      (mem_step_of_after map (l1 ++ x :: l2) _ x info hget (heq ▸ hany))
  · obtain ⟨l1, l2, heq⟩ := List.append_of_mem hy
    rw [computeWait, heq, List.foldl_append, List.foldl_cons]
    exact mem_waitFold_of_mem map (l1 ++ y :: l2) l2
      (mem_step_of_before map (l1 ++ y :: l2) _ x y info hget hmem (heq ▸ hx))

theorem alGet_of_mem_keys {ι : Type} (map : List (IHId × InterceptorInfo ι))
    (x : IHId) (hx : x ∈ keysOf map) :
    ∃ info, alGet map x = some info ∧ (WellKeyed map → info.id = x) := by
  obtain ⟨e, he, hex⟩ := List.mem_map.mp hx
  have hsome : (map.find? (fun e => decide (e.1 = x))).isSome := by
    rw [List.find?_isSome]
    exact ⟨e, he, by simp [hex]⟩
  obtain ⟨e2, he2⟩ := Option.isSome_iff_exists.mp hsome
  have he2m := List.mem_of_find?_eq_some he2
  have he2p : e2.1 = x := by simpa using List.find?_some he2
  refine ⟨e2.2, ?_, fun hwk => (hwk e2 he2m).trans he2p⟩
  simp [alGet, he2]

theorem filterMap_alGet_ids {ι : Type} (map : List (IHId × InterceptorInfo ι))
    (hwk : WellKeyed map) (l : List IHId) (hl : ∀ u ∈ l, u ∈ keysOf map) :
    (l.filterMap (fun id => alGet map id)).map (·.id) = l := by
  induction l with
  | nil => rfl
  | cons u rest ih =>
    obtain ⟨info, hget, hid⟩ := alGet_of_mem_keys map u (hl u (List.mem_cons_self u rest))
    simp only [List.filterMap_cons, hget, List.map_cons, hid hwk]
    rw [ih (fun v hv => hl v (List.mem_cons_of_mem u hv))]

theorem orderLoopGo_sound {ι : Type} (map : List (IHId × InterceptorInfo ι))
    (hwk : WellKeyed map) (L : Nat) :
    ∀ (fuel : Nat) (unresolved : List IHId) (acc res : List (InterceptorInfo ι)),
      (∀ u ∈ unresolved, u ∈ keysOf map) →
      orderLoopGo map L fuel unresolved acc = some (res, []) →
      ∃ tail, res = acc ++ tail ∧ (tail.map (·.id)).Perm unresolved ∧
        ∀ x y : IHId, x ∈ unresolved → y ∈ unresolved → MustPrecede map y x →
          [y, x].Sublist (tail.map (·.id))
  | 0, unresolved, acc, res => by
    intro _ h
    exact Option.noConfusion h
  | fuel + 1, unresolved, acc, res => by
    intro hsub h
    rw [show orderLoopGo map L (fuel + 1) unresolved acc =
        (if (unresolved.filter
              (fun id => decide (id ∈ computeWait map unresolved))).length ≠ L ∧
            (unresolved.filter
              (fun id => decide (id ∈ computeWait map unresolved))).length ≠ 0 then
          orderLoopGo map L fuel
            (unresolved.filter (fun id => decide (id ∈ computeWait map unresolved)))
            (acc ++ (unresolved.filter
              (fun id => decide (id ∉ computeWait map unresolved))).filterMap
                (fun id => alGet map id))
        else
          some (acc ++ (unresolved.filter
              (fun id => decide (id ∉ computeWait map unresolved))).filterMap
                (fun id => alGet map id),
            unresolved.filter
              (fun id => decide (id ∈ computeWait map unresolved)))) from rfl] at h
    have hpartition :
        ((unresolved.filter (fun id => decide (id ∉ computeWait map unresolved))) ++
          (unresolved.filter
            (fun id => decide (id ∈ computeWait map unresolved)))).Perm unresolved := by
      have hcongr : unresolved.filter
            (fun id => decide (id ∈ computeWait map unresolved)) =
          unresolved.filter
            (fun id => !(fun id => decide (id ∉ computeWait map unresolved)) id) := by
        apply List.filter_congr
        intro a _
        simp [decide_not]
      rw [hcongr]
      exact List.filter_append_perm _ unresolved
    have hEsub : ∀ u ∈ unresolved.filter
        (fun id => decide (id ∉ computeWait map unresolved)), u ∈ keysOf map :=
      fun u hu => hsub u (List.mem_filter.mp hu).1
    have hEids : ((unresolved.filter
          (fun id => decide (id ∉ computeWait map unresolved))).filterMap
            (fun id => alGet map id)).map (·.id) =
        unresolved.filter (fun id => decide (id ∉ computeWait map unresolved)) :=
      filterMap_alGet_ids map hwk _ hEsub
    by_cases hcond :
        (unresolved.filter
          (fun id => decide (id ∈ computeWait map unresolved))).length ≠ L ∧
        (unresolved.filter
          (fun id => decide (id ∈ computeWait map unresolved))).length ≠ 0
    · rw [if_pos hcond] at h
      obtain ⟨tail2, heq, hperm, hord⟩ :=
        orderLoopGo_sound map hwk L fuel _ _ res
          (fun u hu => hsub u (List.mem_filter.mp hu).1) h
      refine ⟨(unresolved.filter
          (fun id => decide (id ∉ computeWait map unresolved))).filterMap
            (fun id => alGet map id) ++ tail2, ?_, ?_, ?_⟩
      · rw [heq, List.append_assoc]
      · rw [List.map_append, hEids]
        exact (hperm.append_left _).trans hpartition
      · intro x y hx hy hprec
        have hxwait : x ∈ computeWait map unresolved :=
          mem_wait_of_mustPrecede map unresolved x y hprec hy hx
        have hxK : x ∈ unresolved.filter
            (fun id => decide (id ∈ computeWait map unresolved)) :=
          List.mem_filter.mpr ⟨hx, by simpa using hxwait⟩
        rw [List.map_append, hEids]
        by_cases hywait : y ∈ computeWait map unresolved
        · have hyK : y ∈ unresolved.filter
              (fun id => decide (id ∈ computeWait map unresolved)) :=
            List.mem_filter.mpr ⟨hy, by simpa using hywait⟩
          exact (hord x y hxK hyK hprec).trans (List.sublist_append_right _ _)
        · have hyE : y ∈ unresolved.filter
              (fun id => decide (id ∉ computeWait map unresolved)) :=
            List.mem_filter.mpr ⟨hy, by simpa using hywait⟩
          have hxT : x ∈ tail2.map (·.id) := hperm.mem_iff.mpr hxK
          exact List.Sublist.append (List.singleton_sublist.mpr hyE)
            (List.singleton_sublist.mpr hxT)
    · rw [if_neg hcond] at h
      injection h with h2
      injection h2 with hres hK
      refine ⟨(unresolved.filter
          (fun id => decide (id ∉ computeWait map unresolved))).filterMap
            (fun id => alGet map id), hres.symm, ?_, ?_⟩
      · rw [hEids]
        have := hpartition
        rw [hK, List.append_nil] at this
        exact this
      · intro x y hx hy hprec
        have hxwait : x ∈ computeWait map unresolved :=
          mem_wait_of_mustPrecede map unresolved x y hprec hy hx
        have hxK : x ∈ unresolved.filter
            (fun id => decide (id ∈ computeWait map unresolved)) :=
          List.mem_filter.mpr ⟨hx, by simpa using hxwait⟩
        rw [hK] at hxK
        cases hxK

theorem orderInfo_sound {ι : Type} (map : List (IHId × InterceptorInfo ι))
    (fuel : Nat) (res : List (InterceptorInfo ι)) (hwk : WellKeyed map)
    (h : _orderInterceptorsInfo map fuel = some (.ok res)) :
    (res.map (·.id)).Perm (keysOf map) ∧
    ∀ x y : IHId, x ∈ keysOf map → y ∈ keysOf map → MustPrecede map y x →
      [y, x].Sublist (res.map (·.id)) := by
  cases hl : orderLoopGo map map.length fuel (map.map Prod.fst) [] with
  | none => simp [_orderInterceptorsInfo, hl] at h
  | some r =>
    obtain ⟨result, unresolved⟩ := r
    cases hnil : unresolved with
    | cons a t =>
      subst hnil
      simp [_orderInterceptorsInfo, hl] at h
    | nil =>
      subst hnil
      simp only [_orderInterceptorsInfo, List.length_map, hl, ne_eq,
        List.length_nil, not_true_eq_false, not_false_eq_true, if_false,
        ite_false, Option.some.injEq, Except.ok.injEq, if_neg, reduceIte] at h
      subst h
      obtain ⟨tail, heq, hperm, hord⟩ :=
        orderLoopGo_sound map hwk map.length fuel
          (map.map Prod.fst) [] result (fun u hu2 => hu2) hl
      rw [List.nil_append] at heq
      subst heq
      exact ⟨hperm, hord⟩

theorem getOrdered_concat {ι : Type} (s : HooksState ι) (name : IHName)
    (fuel : Nat) (L : List ι) (s2 : HooksState ι)
    (hc : alGet s.interceptorsOrdered (.concrete name) = none)
    (h : _getOrderedInterceptors s name fuel = some (.ok (L, s2))) :
    ∃ mp p m q, _getInterceptors s name = .ok mp ∧
      _verifyInterceptors mp = none ∧
      _orderInterceptors (_separateInterceptors mp).1 fuel = some (.ok p) ∧
      _orderInterceptors (_separateInterceptors mp).2.1 fuel = some (.ok m) ∧
      _orderInterceptors (_separateInterceptors mp).2.2 fuel = some (.ok q) ∧
      L = p ++ m ++ q := by
  cases hg : _getInterceptors s name with
  | error e => simp [_getOrderedInterceptors, hc, hg] at h
  | ok mp =>
    cases hv : _verifyInterceptors mp with
    | some e => simp [_getOrderedInterceptors, hc, hg, hv] at h
    | none =>
      cases hp : _orderInterceptors (_separateInterceptors mp).1 fuel with
      | none => simp [_getOrderedInterceptors, hc, hg, hv, hp] at h
      | some rp =>
        cases rp with
        | error e => simp [_getOrderedInterceptors, hc, hg, hv, hp] at h
        | ok p =>
          cases hm : _orderInterceptors (_separateInterceptors mp).2.1 fuel with
          | none => simp [_getOrderedInterceptors, hc, hg, hv, hp, hm] at h
          | some rm =>
            cases rm with
            | error e => simp [_getOrderedInterceptors, hc, hg, hv, hp, hm] at h
            | ok m =>
              cases hq : _orderInterceptors (_separateInterceptors mp).2.2 fuel with
              | none => simp [_getOrderedInterceptors, hc, hg, hv, hp, hm, hq] at h
              | some rq =>
                cases rq with
                | error e =>
                  simp [_getOrderedInterceptors, hc, hg, hv, hp, hm, hq] at h
                | ok q =>
                  simp only [_getOrderedInterceptors, hc, hg, hv, hp, hm, hq,
                    Option.some.injEq, Except.ok.injEq, Prod.mk.injEq] at h
                  exact ⟨mp, p, m, q, rfl, hv, hp, hm, hq, h.1.symm⟩

theorem alGet_map_value {ι : Type} (m : List (IHId × InterceptorInfo ι))
    (f : InterceptorInfo ι → InterceptorInfo ι) (k : IHId) :
    alGet (m.map (fun e => (e.1, f e.2))) k = (alGet m k).map f := by
  induction m with
  | nil => rfl
  | cons e t ih =>
    by_cases h : e.1 = k
    · simp [alGet, List.find?, h]
    · simpa [alGet, List.find?, h] using ih

theorem keysOf_restrictPool {ι : Type} (map : List (IHId × InterceptorInfo ι)) :
    (restrictPool map).map Prod.fst = map.map Prod.fst := by
  unfold restrictPool
  rw [List.map_map]
  rfl

theorem any_filter_of_imp {p q : IHId → Bool} (l : List IHId)
    (h : ∀ a, q a = true → p a = true) :
    (l.filter p).any q = l.any q := by
  induction l with
  | nil => rfl
  | cons a t ih =>
    by_cases hp : p a = true
    · simp [List.filter_cons, hp, List.any_cons, ih]
    · have hq : q a = false := by
        cases hqa : q a
        · rfl
        · exact absurd (h a hqa) hp
      simp [List.filter_cons, hp, List.any_cons, hq, ih]

theorem beforeFold_filter_eq (u k : List IHId) (hu : ∀ a ∈ u, a ∈ k)
    (l : List IHId) (w : List IHId) :
    (l.filter (fun b => decide (b ∈ k))).foldl
        (fun w b => if b ∈ u then waitAdd w b else w) w =
      l.foldl (fun w b => if b ∈ u then waitAdd w b else w) w := by
  induction l generalizing w with
  | nil => rfl
  | cons b t ih =>
    by_cases hk : b ∈ k
    · simp only [List.filter_cons, hk, decide_True, if_true, List.foldl_cons]
      exact ih _
    · have hbu : b ∉ u := fun hb => hk (hu b hb)
      simp only [List.filter_cons, hk, decide_False, if_false, List.foldl_cons,
        hbu, Bool.false_eq_true]
      exact ih _

theorem computeWaitStep_restrict {ι : Type} (map : List (IHId × InterceptorInfo ι))
    (u : List IHId) (hu : ∀ a ∈ u, a ∈ keysOf map) (w : List IHId) (id : IHId) :
    computeWaitStep (restrictPool map) u w id = computeWaitStep map u w id := by
  have hget : alGet (restrictPool map) id =
      (alGet map id).map (restrictInfo (keysOf map)) :=
    alGet_map_value map (restrictInfo (keysOf map)) id
  cases hg : alGet map id with
  | none =>
    have hg2 : alGet (restrictPool map) id = none := by rw [hget, hg]; rfl
    simp [computeWaitStep, hg, hg2]
  | some info =>
    have hg2 : alGet (restrictPool map) id =
        some (restrictInfo (keysOf map) info) := by rw [hget, hg]; rfl
    have hany : ((restrictInfo (keysOf map) info).conditions.after).any
          (fun a => decide (a ∈ u)) =
        info.conditions.after.any (fun a => decide (a ∈ u)) := by
      unfold restrictInfo
      exact any_filter_of_imp _ (fun a ha => by
        simp only [decide_eq_true_eq] at ha ⊢
        exact hu a ha)
    have hbefore : ∀ w0 : List IHId,
        ((restrictInfo (keysOf map) info).conditions.before).foldl
          (fun w b => if b ∈ u then waitAdd w b else w) w0 =
        info.conditions.before.foldl
          (fun w b => if b ∈ u then waitAdd w b else w) w0 := by
      intro w0
      unfold restrictInfo
      exact beforeFold_filter_eq u (keysOf map) hu _ w0
    unfold computeWaitStep
    rw [hg2, hg]
    dsimp only
    rw [hany]
    exact hbefore _

theorem computeWait_restrict {ι : Type} (map : List (IHId × InterceptorInfo ι))
    (u : List IHId) (hu : ∀ a ∈ u, a ∈ keysOf map) :
    computeWait (restrictPool map) u = computeWait map u := by
  unfold computeWait
  have hfold : ∀ (l w : List IHId),
      l.foldl (computeWaitStep (restrictPool map) u) w =
        l.foldl (computeWaitStep map u) w := by
    intro l
    induction l with
    | nil => intro w; rfl
    | cons x t ih =>
      intro w
      simp only [List.foldl_cons, computeWaitStep_restrict map u hu]
      exact ih _
  exact hfold u []

theorem orderLoopGo_restrict {ι : Type} (map : List (IHId × InterceptorInfo ι))
    (Lsz : Nat) :
    ∀ (fuel : Nat) (u : List IHId) (acc : List (InterceptorInfo ι)),
      (∀ a ∈ u, a ∈ keysOf map) →
      orderLoopGo (restrictPool map) Lsz fuel u
          (acc.map (restrictInfo (keysOf map))) =
        (orderLoopGo map Lsz fuel u acc).map
          (fun r => (r.1.map (restrictInfo (keysOf map)), r.2))
  | 0, u, acc => by
    intro _
    rfl
  | fuel + 1, u, acc => by
    intro hu
    rw [show orderLoopGo (restrictPool map) Lsz (fuel + 1) u
        (acc.map (restrictInfo (keysOf map))) =
        (if (u.filter (fun id => decide (id ∈ computeWait (restrictPool map) u))).length ≠ Lsz ∧
            (u.filter (fun id => decide (id ∈ computeWait (restrictPool map) u))).length ≠ 0 then
          orderLoopGo (restrictPool map) Lsz fuel
            (u.filter (fun id => decide (id ∈ computeWait (restrictPool map) u)))
            (acc.map (restrictInfo (keysOf map)) ++
              (u.filter (fun id => decide (id ∉ computeWait (restrictPool map) u))).filterMap
                (fun id => alGet (restrictPool map) id))
        else
          some (acc.map (restrictInfo (keysOf map)) ++
              (u.filter (fun id => decide (id ∉ computeWait (restrictPool map) u))).filterMap
                (fun id => alGet (restrictPool map) id),
            u.filter (fun id => decide (id ∈ computeWait (restrictPool map) u)))) from rfl]
    rw [show orderLoopGo map Lsz (fuel + 1) u acc =
        (if (u.filter (fun id => decide (id ∈ computeWait map u))).length ≠ Lsz ∧
            (u.filter (fun id => decide (id ∈ computeWait map u))).length ≠ 0 then
          orderLoopGo map Lsz fuel
            (u.filter (fun id => decide (id ∈ computeWait map u)))
            (acc ++ (u.filter (fun id => decide (id ∉ computeWait map u))).filterMap
                (fun id => alGet map id))
        else
          some (acc ++ (u.filter (fun id => decide (id ∉ computeWait map u))).filterMap
                (fun id => alGet map id),
            u.filter (fun id => decide (id ∈ computeWait map u)))) from rfl]
    rw [computeWait_restrict map u hu]
    have hfm : (u.filter (fun id => decide (id ∉ computeWait map u))).filterMap
          (fun id => alGet (restrictPool map) id) =
        ((u.filter (fun id => decide (id ∉ computeWait map u))).filterMap
          (fun id => alGet map id)).map (restrictInfo (keysOf map)) := by
      rw [List.map_filterMap]
      apply List.filterMap_congr
      intro a _
      exact alGet_map_value map (restrictInfo (keysOf map)) a
    rw [hfm, ← List.map_append]
    by_cases hcond : (u.filter (fun id => decide (id ∈ computeWait map u))).length ≠ Lsz ∧
        (u.filter (fun id => decide (id ∈ computeWait map u))).length ≠ 0
    · rw [if_pos hcond, if_pos hcond]
      exact orderLoopGo_restrict map Lsz fuel _ _
        (fun a ha => hu a (List.mem_filter.mp ha).1)
    · rw [if_neg hcond, if_neg hcond]
      rfl

theorem orderInterceptors_restrict {ι : Type}
    (map : List (IHId × InterceptorInfo ι)) (fuel : Nat) :
    _orderInterceptors (restrictPool map) fuel = _orderInterceptors map fuel := by
  unfold _orderInterceptors _orderInterceptorsInfo
  rw [keysOf_restrictPool]
  have hloop := orderLoopGo_restrict map (map.map Prod.fst).length fuel
    (map.map Prod.fst) [] (fun a ha => ha)
  rw [show (([] : List (InterceptorInfo ι)).map (restrictInfo (keysOf map))) =
      [] from rfl] at hloop
  rw [hloop]
  cases orderLoopGo map (map.map Prod.fst).length fuel (map.map Prod.fst) [] with
  | none => rfl
  | some r =>
    obtain ⟨result, unresolved⟩ := r
    by_cases hu : unresolved.length ≠ 0
    · simp [hu]
    · have hinj : ∀ i : InterceptorInfo ι,
          (restrictInfo (keysOf map) i).injector = i.injector := fun _ => rfl
      simp [hu, Except.map, List.map_map, Function.comp, hinj]


/-- C5: for every pool that resolves successfully, the chain is the
concatenation of the pre-, mid- and post-bucket orders; within one bucket's
pool the emitted records are a permutation of the pool and every record
comes after each id in its `after` set and before each id in its `before`
set whenever that id belongs to the same pool; and `after`/`before`
references to ids outside the pool (in particular, ids in a different
bucket) are inert — removing them changes nothing. -/
theorem claim_C5_resolution_ordering {ι : Type} :
    (∀ (s : HooksState ι) (name : IHName) (fuel : Nat) (L : List ι)
        (s2 : HooksState ι),
      alGet s.interceptorsOrdered (.concrete name) = none →
      _getOrderedInterceptors s name fuel = some (.ok (L, s2)) →
      ∃ mp p m q, _getInterceptors s name = .ok mp ∧
        _verifyInterceptors mp = none ∧
        _orderInterceptors (_separateInterceptors mp).1 fuel = some (.ok p) ∧
        _orderInterceptors (_separateInterceptors mp).2.1 fuel = some (.ok m) ∧
        _orderInterceptors (_separateInterceptors mp).2.2 fuel = some (.ok q) ∧
        L = p ++ m ++ q) ∧
    (∀ (map : List (IHId × InterceptorInfo ι)) (fuel : Nat)
        (res : List (InterceptorInfo ι)),
      WellKeyed map →
      _orderInterceptorsInfo map fuel = some (.ok res) →
      (res.map (·.id)).Perm (keysOf map) ∧
      ∀ x y : IHId, x ∈ keysOf map → y ∈ keysOf map → MustPrecede map y x →
        [y, x].Sublist (res.map (·.id))) ∧
    (∀ (map : List (IHId × InterceptorInfo ι)) (fuel : Nat),
      _orderInterceptors (restrictPool map) fuel = _orderInterceptors map fuel) :=
  ⟨fun s name fuel L s2 hc h => getOrdered_concat s name fuel L s2 hc h,
   fun map fuel res hwk h => orderInfo_sound map fuel res hwk h,
   fun map fuel => orderInterceptors_restrict map fuel⟩

/-- C5 witness: the pool `one{before:two}`, `two{after:one}`,
`three{before:two}` resolves to a permutation of the pool with `one` and
`three` both placed before `two`, and the corresponding `inject`-built state
resolves to the concatenation of its bucket orders. -/
theorem claim_C5_witness :
    (c5res.map (·.id)).Perm (keysOf c5pool) ∧
    ["one", "two"].Sublist (c5res.map (·.id)) ∧
    ["three", "two"].Sublist (c5res.map (·.id)) ∧
    ∃ L s2 mp p m q,
      _getOrderedInterceptors c5State "t" 3 = some (.ok (L, s2)) ∧
      _getInterceptors c5State "t" = .ok mp ∧
      _verifyInterceptors mp = none ∧
      _orderInterceptors (_separateInterceptors mp).1 3 = some (.ok p) ∧
      _orderInterceptors (_separateInterceptors mp).2.1 3 = some (.ok m) ∧
      _orderInterceptors (_separateInterceptors mp).2.2 3 = some (.ok q) ∧
      L = p ++ m ++ q := by
  have hwk : WellKeyed c5pool := by
    intro e he
    simp only [c5pool, List.mem_cons, List.not_mem_nil, or_false] at he
    rcases he with h | h | h <;> subst h <;> rfl
  have hB := (claim_C5_resolution_ordering (ι := Unit)).2.1 c5pool 3 c5res hwk rfl
  refine ⟨hB.1, ?_, ?_, ?_⟩
  · exact hB.2 "two" "one" (by decide) (by decide)
      (Or.inl ⟨c5info "two" ["one"] [], rfl, by decide⟩)
  · exact hB.2 "two" "three" (by decide) (by decide)
      (Or.inr ⟨c5info "three" [] ["two"], rfl, by decide⟩)
  · obtain ⟨mp, p, m, q, h1, h2, h3, h4, h5, h6⟩ :=
      (claim_C5_resolution_ordering (ι := Unit)).1 c5State "t" 3 _ _ rfl rfl
    exact ⟨_, _, mp, p, m, q, rfl, h1, h2, h3, h4, h5, h6⟩

end InjectHooks
